import Mathlib

/-!
Verification of the change-detection bridge in
`lib/data_adapter.js` (the `DataAdapter` of the extension-support
package).

The file shallowly embeds the three components of the adapter:

* `RecordsWatcher` (collection watcher): a top-level memoized computation
  that diffs the watched collection against per-record memoized nodes and
  dispatches `recordsAdded` / `recordsUpdated` / `recordsRemoved`.
* `TypeWatcher`: a memoized computation that only tracks collection
  membership and calls `onChange` on every re-evaluation after the first.
* The `DataAdapter` coordinator: dedup registries (`recordsWatchers`,
  `typeWatchers`, `releaseMethods`), the `backburner` subscription of
  `flushWatchers`, `watchRecords`, `observeModelType`, `watchModelTypes`
  and `willDestroy`.

The `@glimmer/validator` primitive (`createCache` / `getValue` /
`consumeTag` / `untrack`) is an external capability; it is embedded by its
contract: a cache stores the revisions of every tag consumed during its
last evaluation and `getValue` re-runs the computation exactly when one of
those revisions changed, entangling consumed tags into the enclosing
computation; reads inside `untrack` register no tags.  Records are
identified by `Nat`; the tag of the collection (`tagFor(records, '[]')`)
and the tag of each record's tracked fields are modelled as revision
counters.  `wrapRecord` is opaque and identity-preserving, so wrapped
payloads are represented by the record ids themselves.
-/

set_option autoImplicit false

namespace DataAdapter

/-- Association-list lookup keyed by identity; models JS `Map.get`. -/
def alookup {α : Type} (k : Nat) : List (Nat × α) → Option α
  | [] => none
  | p :: l => if p.1 = k then some p.2 else alookup k l

/-- Replace the value of the first entry with the given key; models mutating
the memo state of the cache object already stored in the `Map`. -/
def aupdate {α : Type} (k : Nat) (v : α) : List (Nat × α) → List (Nat × α)
  | [] => []
  | p :: l => if p.1 = k then (k, v) :: l else p :: aupdate k v l

/-- Remove every entry with the given key; models JS `Map.delete` (on maps
with distinct keys the two coincide). -/
def aerase {α : Type} (k : Nat) : List (Nat × α) → List (Nat × α)
  | [] => []
  | p :: l => if p.1 = k then aerase k l else p :: aerase k l

/-- The keys of an association list, in insertion order. -/
def akeys {α : Type} (l : List (Nat × α)) : List Nat :=
  l.map Prod.fst

/-- The observable state of one watched record collection:
`recs` is the live collection in iteration order (duplicates allowed),
`arrRev` is the revision of `tagFor(records, '[]')` (bumped by membership
changes), and `recRev r` is the revision of record `r`'s tracked fields
(bumped by in-place mutation). -/
structure RecEnv where
  recs : List Nat
  arrRev : Nat
  recRev : Nat → Nat

/-- The memo state of one per-record cache created by `RecordsWatcher`:
`hasBeenAdded` is the closure flag of the same name, and `snap` records the
revision of the record's tracked fields consumed during the last
evaluation (`none` before the first evaluation). -/
structure RecordCache where
  hasBeenAdded : Bool
  snap : Option Nat
deriving DecidableEq

/-- `getValue` on a per-record cache.  If every tag consumed during the
last evaluation is unchanged, the memoized result is returned and nothing
runs.  Otherwise the computation re-runs: it pushes the record to `added`
(when `hasBeenAdded` is still false, flipping it) or to `updated`, and
re-registers the record's current revision as its dependency.  The second
component reports the side effect: `some true` = pushed to `added`,
`some false` = pushed to `updated`, `none` = memoized, no effect. -/
def getValueRec (env : RecEnv) (r : Nat) (c : RecordCache) : RecordCache × Option Bool :=
  match c.snap with
  | some v =>
    if v = env.recRev r then (c, none)
    else (⟨true, some (env.recRev r)⟩, some (!c.hasBeenAdded))
  | none => (⟨true, some (env.recRev r)⟩, some (!c.hasBeenAdded))

/-- The memo state of a per-record cache that was just (re)evaluated under
the current environment: reported at least once, dependency current. -/
def curCache (env : RecEnv) (r : Nat) : RecordCache :=
  ⟨true, some (env.recRev r)⟩

/-- The running state of one evaluation of `recordArrayCache`: the
per-record cache map, the `added` and `updated` lists being built, and the
dependencies entangled so far into the top-level computation (each nested
`getValue` entangles the record tag at its current revision). -/
structure RunAcc where
  caches : List (Nat × RecordCache)
  added : List Nat
  updated : List Nat
  deps : List (Nat × Nat)

/-- One iteration of the `iterate(records, ...)` loop of
`recordArrayCache`: look up or lazily create the record's cache, force it
(classifying the record as added/updated when it recomputes), and entangle
its dependency into the top-level computation.  Fresh caches are appended
to the map (JS `Map.set` insertion order) before being forced. -/
def stepRecord (env : RecEnv) (acc : RunAcc) (r : Nat) : RunAcc :=
  match alookup r acc.caches with
  | none =>
    let p := getValueRec env r ⟨false, none⟩
    { caches := acc.caches ++ [(r, p.1)]
      added := acc.added ++ (if p.2 = some true then [r] else [])
      updated := acc.updated ++ (if p.2 = some false then [r] else [])
      deps := acc.deps ++ [(r, env.recRev r)] }
  | some c =>
    let p := getValueRec env r c
    { caches := aupdate r p.1 acc.caches
      added := acc.added ++ (if p.2 = some true then [r] else [])
      updated := acc.updated ++ (if p.2 = some false then [r] else [])
      deps := acc.deps ++ [(r, env.recRev r)] }

/-- The diff produced by one executed evaluation of `recordArrayCache`. -/
structure RunDiff where
  added : List Nat
  updated : List Nat
  removed : List Nat
deriving DecidableEq

/-- One full evaluation of `recordArrayCache`: iterate the collection
(forcing per-record caches), then, inside `untrack`, sweep the cache map
for records not seen this round, reporting them removed and discarding
their caches; the sweep registers no dependencies.  Returns the resulting
cache map, the diff, and the dependencies registered by this evaluation
(the `'[]'` tag is accounted separately by the caller). -/
def runArray (env : RecEnv) (caches0 : List (Nat × RecordCache)) :
    List (Nat × RecordCache) × RunDiff × List (Nat × Nat) :=
  let acc := env.recs.foldl (stepRecord env) ⟨caches0, [], [], []⟩
  let removed := (acc.caches.filter (fun p => decide (p.1 ∉ env.recs))).map Prod.fst
  let caches1 := acc.caches.filter (fun p => decide (p.1 ∈ env.recs))
  (caches1, ⟨acc.added, acc.updated, removed⟩, acc.deps)

/-- A `RecordsWatcher`: the per-record cache map and the memo state of
`recordArrayCache` — `none` before the first forcing, otherwise the
revision of the `'[]'` tag plus the entangled per-record dependencies as
of the last evaluation. -/
structure RWatcher where
  recordCaches : List (Nat × RecordCache)
  arraySnap : Option (Nat × List (Nat × Nat))
deriving DecidableEq

/-- Whether every tag consumed during the last evaluation of
`recordArrayCache` still has its recorded revision. -/
def arrayValid (env : RecEnv) (w : RWatcher) : Bool :=
  match w.arraySnap with
  | none => false
  | some (a, ds) => a = env.arrRev && ds.all (fun p => env.recRev p.1 = p.2)

/-- `RecordsWatcher.revalidate()`: `getValue(this.recordArrayCache)`.
Returns the watcher afterwards and `some diff` when the computation
actually ran (`none` when it was memoized, in which case no callback can
fire). -/
def revalidateR (env : RecEnv) (w : RWatcher) : RWatcher × Option RunDiff :=
  if arrayValid env w then (w, none)
  else
    let out := runArray env w.recordCaches
    (⟨out.1, some (env.arrRev, out.2.2)⟩, some out.2.1)

/-- One observable callback invocation of a `RecordsWatcher`
revalidation, carrying the ordered list of (wrapped) records passed. -/
inductive CbCall where
  | ca (l : List Nat)
  | cu (l : List Nat)
  | cr (l : List Nat)
deriving DecidableEq

/-- Numeric tag of a callback: 0 = `recordsAdded`, 1 = `recordsUpdated`,
2 = `recordsRemoved`. -/
def kindOf : CbCall → Nat
  | .ca _ => 0
  | .cu _ => 1
  | .cr _ => 2

/-- The list argument a callback invocation was given. -/
def payloadOf : CbCall → List Nat
  | .ca l => l
  | .cu l => l
  | .cr l => l

/-- The dispatch tail of `recordArrayCache`: each callback is invoked at
most once, only when its list is non-empty, in the order
added, updated, removed. -/
def dispatchCalls (d : RunDiff) : List CbCall :=
  (if 0 < d.added.length then [CbCall.ca d.added] else []) ++
    (if 0 < d.updated.length then [CbCall.cu d.updated] else []) ++
      (if 0 < d.removed.length then [CbCall.cr d.removed] else [])

/-- `RecordsWatcher.revalidate()` together with the sequence of callback
invocations it performs (empty when the cache was memoized). -/
def revalidateCalls (env : RecEnv) (w : RWatcher) : RWatcher × List CbCall :=
  match revalidateR env w with
  | (w1, none) => (w1, [])
  | (w1, some d) => (w1, dispatchCalls d)

/-- A `TypeWatcher`: the `hasBeenAccessed` closure flag and the memo state
of its cache (the revision of the `'[]'` tag consumed during the last
evaluation; iterating the collection and `consumeTag(tagFor(records,'[]'))`
both track collection membership only). -/
structure TWatcher where
  hasBeenAccessed : Bool
  snap : Option Nat
deriving DecidableEq

/-- `TypeWatcher.revalidate()`: force the cache; when it recomputes, call
`onChange()` unless this is the first-ever evaluation.  The second
component counts the `onChange` invocations performed by this call. -/
def trevalidate (env : RecEnv) (t : TWatcher) : TWatcher × Nat :=
  match t.snap with
  | some v =>
    if v = env.arrRev then (t, 0)
    else (⟨true, some env.arrRev⟩, if t.hasBeenAccessed then 1 else 0)
  | none => (⟨true, some env.arrRev⟩, if t.hasBeenAccessed then 1 else 0)

/-- One step of the environment interleaved with watcher revalidations:
add a record (membership change bumps the `'[]'` tag), remove one
occurrence of a record (ditto), mutate a record's tracked fields in place,
or revalidate the watcher. -/
inductive ROp where
  | add (r : Nat)
  | remove (r : Nat)
  | mutate (r : Nat)
  | reval
deriving DecidableEq

/-- Effect of a trace operation on the watched collection and its tags. -/
def stepEnv : ROp → RecEnv → RecEnv
  | .add r, e => ⟨e.recs ++ [r], e.arrRev + 1, e.recRev⟩
  | .remove r, e => ⟨e.recs.erase r, e.arrRev + 1, e.recRev⟩
  | .mutate r, e => ⟨e.recs, e.arrRev, fun x => if x = r then e.recRev x + 1 else e.recRev x⟩
  | .reval, e => e

/-- A watched system: the collection environment, one `RecordsWatcher`,
and the log of diffs of every revalidation that actually executed. -/
structure RSys where
  env : RecEnv
  w : RWatcher
  log : List RunDiff

/-- One trace step of the watched system. -/
def rstep (s : RSys) : ROp → RSys
  | .reval =>
    let out := revalidateR s.env s.w
    ⟨s.env, out.1, s.log ++ (match out.2 with | some d => [d] | none => [])⟩
  | op => ⟨stepEnv op s.env, s.w, s.log⟩

/-- The initial system: empty collection, a freshly constructed watcher
(empty cache map, `recordArrayCache` not yet forced), empty log. -/
def rinit : RSys :=
  ⟨⟨[], 0, fun _ => 0⟩, ⟨[], none⟩, []⟩

/-- Run a trace from a given system state. -/
def runFrom (s : RSys) (ops : List ROp) : RSys :=
  ops.foldl rstep s

/-- Run a trace from the initial system. -/
def runTrace (ops : List ROp) : RSys :=
  runFrom rinit ops

/-- The records present in the collection at some revalidation point of
the trace (whether or not that revalidation recomputed). -/
def everPresent : RecEnv → List ROp → List Nat
  | _, [] => []
  | e, op :: rest =>
    (match op with | .reval => e.recs | _ => []) ++ everPresent (stepEnv op e) rest

/-- All records ever passed to `recordsAdded`, across the log. -/
def unionAdded : List RunDiff → List Nat
  | [] => []
  | d :: l => d.added ++ unionAdded l

/-- All records ever passed to `recordsRemoved`, across the log. -/
def unionRemoved : List RunDiff → List Nat
  | [] => []
  | d :: l => d.removed ++ unionRemoved l

/-- The kind of report a single record receives in one diff. -/
inductive REv where
  | A
  | U
  | R
deriving DecidableEq

/-- The reports record `r` receives in one diff, in callback order. -/
def eventsOfRun (r : Nat) (d : RunDiff) : List REv :=
  (if r ∈ d.added then [REv.A] else []) ++
    (if r ∈ d.updated then [REv.U] else []) ++
      (if r ∈ d.removed then [REv.R] else [])

/-- The reports record `r` receives across a log, oldest first. -/
def eventsOf (r : Nat) : List RunDiff → List REv
  | [] => []
  | d :: l => eventsOfRun r d ++ eventsOf r l

/-- The per-record report automaton: state `false` = not currently
reported present, `true` = reported added and not yet reported removed.
`added` is legal only from `false`; `updated` and `removed` only from
`true`.  `autoRun` returns the final state, or `none` when the report
sequence is illegal. -/
def autoRun : Bool → List REv → Option Bool
  | b, [] => some b
  | false, .A :: es => autoRun true es
  | true, .U :: es => autoRun true es
  | true, .R :: es => autoRun false es
  | true, .A :: _ => none
  | false, .U :: _ => none
  | false, .R :: _ => none

/-- Coordinator state of the `DataAdapter` instance.
`recordsWatchers` / `typeWatchers` map the resolved collection (by
identity) to the watcher created for it (represented by a creation id,
which also identifies the `release` closure handed to callers).
`releaseMethods` holds the pending composite release callbacks pushed by
`watchModelTypes`, each recording the collections of the type observers it
tears down.  `subCount` counts the live `backburner.on('end', flushWatchers)`
registrations.  `issuedR` / `issuedC` remember which release closures were
ever handed out (a host can only invoke a closure it received). -/
structure Coord where
  recordsWatchers : List (Nat × Nat)
  typeWatchers : List (Nat × Nat)
  releaseMethods : List (Nat × List Nat)
  subCount : Nat
  nextWid : Nat
  nextCid : Nat
  issuedR : List Nat
  issuedT : List Nat
  issuedC : List (Nat × List Nat)
deriving DecidableEq

/-- The release closure created in `watchRecords`: if this registry
currently holds exactly one watcher, unsubscribe `flushWatchers`, then
delete the collection's entry. -/
def releaseRecords (c : Nat) (s : Coord) : Coord :=
  let s1 := if s.recordsWatchers.length = 1 then { s with subCount := s.subCount - 1 } else s
  { s1 with recordsWatchers := aerase c s1.recordsWatchers }

/-- The release closure created in `observeModelType`, symmetric to
`releaseRecords`. -/
def releaseType (c : Nat) (s : Coord) : Coord :=
  let s1 := if s.typeWatchers.length = 1 then { s with subCount := s.subCount - 1 } else s
  { s1 with typeWatchers := aerase c s1.typeWatchers }

/-- `watchRecords`, after the model name has been resolved to collection
`c`: reuse the registered watcher if there is one; otherwise subscribe
`flushWatchers` when this registry was empty, create and register a new
watcher, and force its initial revalidation.  Returns the new state, the
identity of the `release` closure returned to the caller, and whether a
new watcher was created (and hence an initial revalidation forced — the
caller's callbacks are stored nowhere else, so on the reuse path they can
never be invoked). -/
def watchRecordsFn (c : Nat) (s : Coord) : Coord × Nat × Bool :=
  match alookup c s.recordsWatchers with
  | some wid => (s, wid, false)
  | none =>
    let s1 := if s.recordsWatchers.length = 0 then { s with subCount := s.subCount + 1 } else s
    let wid := s1.nextWid
    let s2 := { s1 with
      recordsWatchers := s1.recordsWatchers ++ [(c, wid)]
      nextWid := s1.nextWid + 1
      issuedR := s1.issuedR ++ [c] }
    (s2, wid, true)

/-- `observeModelType`, after resolution to collection `c`; symmetric to
`watchRecordsFn`. -/
def watchTypeFn (c : Nat) (s : Coord) : Coord × Nat × Bool :=
  match alookup c s.typeWatchers with
  | some wid => (s, wid, false)
  | none =>
    let s1 := if s.typeWatchers.length = 0 then { s with subCount := s.subCount + 1 } else s
    let wid := s1.nextWid
    let s2 := { s1 with
      typeWatchers := s1.typeWatchers ++ [(c, wid)]
      nextWid := s1.nextWid + 1
      issuedT := s1.issuedT ++ [c] }
    (s2, wid, true)

/-- `watchModelTypes`, after its types have been resolved to the
collections `cs`: observe each type, then push one composite release
callback onto `releaseMethods`. -/
def watchTypesFn (cs : List Nat) (s : Coord) : Coord :=
  let s1 := cs.foldl (fun t c => (watchTypeFn c t).1) s
  { s1 with
    releaseMethods := s1.releaseMethods ++ [(s1.nextCid, cs)]
    nextCid := s1.nextCid + 1
    issuedC := s1.issuedC ++ [(s1.nextCid, cs)] }

/-- The composite release closure built by `watchModelTypes`: invoke every
collected type-observer release, then remove itself from
`releaseMethods`. -/
def compositeRelease (i : Nat) (cs : List Nat) (s : Coord) : Coord :=
  let s1 := cs.foldl (fun t c => releaseType c t) s
  { s1 with releaseMethods := aerase i s1.releaseMethods }

/-- `willDestroy`: release every type watcher, every records watcher, and
every pending release method.  `Map.forEach` visits the entries present at
call time (each release deletes only the entry being visited), and the
iteration of `releaseMethods` is modelled from the spec as a snapshot
iteration (spec §4.3: shutdown "releases every Type Watcher, every
Collection Watcher, and every other pending release callback"); the
`EmberArray` implementing `releaseMethods` is repository code outside the
watched source file. -/
def cdestroy (s : Coord) : Coord :=
  let s1 := (akeys s.typeWatchers).foldl (fun t c => releaseType c t) s
  let s2 := (akeys s.recordsWatchers).foldl (fun t c => releaseRecords c t) s1
  s.releaseMethods.foldl (fun t p => compositeRelease p.1 p.2 t) s2

/-- Host-visible coordinator operations.  `watchR c` / `watchT c` are
`watchRecords` / `observeModelType` calls whose model name resolves to
collection `c`; `relR c` invokes a records-watcher release closure the
host received for collection `c`; `watchTypes cs` is `watchModelTypes`;
`relTypes i` invokes the composite release closure `i`; `flush` is the
batch-completion signal (it only revalidates watchers and touches no
registry); `destroy` is `willDestroy`. -/
inductive COp where
  | watchR (c : Nat)
  | watchT (c : Nat)
  | relR (c : Nat)
  | watchTypes (cs : List Nat)
  | relTypes (i : Nat)
  | flush
  | destroy
deriving DecidableEq

/-- Coordinator transition relationally faithful to the source: release
operations only apply when the corresponding closure was ever issued. -/
def cstep (op : COp) (s : Coord) : Coord :=
  match op with
  | .watchR c => (watchRecordsFn c s).1
  | .watchT c => (watchTypeFn c s).1
  | .relR c => if c ∈ s.issuedR then releaseRecords c s else s
  | .watchTypes cs => watchTypesFn cs s
  | .relTypes i =>
    match alookup i s.issuedC with
    | some cs => compositeRelease i cs s
    | none => s
  | .flush => s
  | .destroy => cdestroy s

/-- A freshly initialised adapter (`init`). -/
def cinit : Coord :=
  ⟨[], [], [], 0, 0, 0, [], [], []⟩

/-- Coordinator state reached by a sequence of host operations. -/
def creach (ops : List COp) : Coord :=
  ops.foldl (fun s op => cstep op s) cinit

/-- Whether a host operation invokes release closures only while their
watchers (and, for composite releases, every type observer they tear
down) are still registered. -/
def safeOp (s : Coord) : COp → Bool
  | .relR c => (alookup c s.recordsWatchers).isSome
  | .relTypes i =>
    match alookup i s.issuedC with
    | some cs =>
      (alookup i s.releaseMethods).isSome &&
        (decide cs.Nodup && cs.all (fun c => (alookup c s.typeWatchers).isSome))
    | none => true
  | _ => true

/-- A trace whose release invocations are all safe in the sense of
`safeOp`. -/
def safeTrace (s : Coord) : List COp → Bool
  | [] => true
  | op :: rest => safeOp s op && safeTrace (cstep op s) rest

/-- The three registries of the coordinator. -/
def registries (s : Coord) : List (Nat × Nat) × List (Nat × Nat) × List (Nat × List Nat) :=
  (s.recordsWatchers, s.typeWatchers, s.releaseMethods)

/-- Whether the records registry contributes one `flushWatchers`
registration. -/
def indR (s : Coord) : Nat :=
  if s.recordsWatchers = [] then 0 else 1

/-- Whether the types registry contributes one `flushWatchers`
registration. -/
def indT (s : Coord) : Nat :=
  if s.typeWatchers = [] then 0 else 1

/-- Structural well-formedness of the coordinator registries: dedup
lookup before creation keeps the keys of both maps distinct, and a
records-release closure exists for every registered collection. -/
structure CoordWf (s : Coord) : Prop where
  nodupR : (akeys s.recordsWatchers).Nodup
  nodupT : (akeys s.typeWatchers).Nodup
  issued : ∀ k ∈ akeys s.recordsWatchers, k ∈ s.issuedR

/-- The subscription bookkeeping invariant: each registry holds exactly
one `backburner` registration while non-empty. -/
def SubInv (s : Coord) : Prop :=
  s.subCount = indR s + indT s

/-- Invariant of every reachable watched system: the cache map has
distinct keys; every stored per-record cache has reported its record
added; the per-record report history is accepted by the report automaton
and its final state matches membership in the cache map; memo
snapshots never exceed the current tag revisions; while the top-level
cache is valid the cache map keys are exactly the collection membership;
and a currently-matching dependency snapshot mentions only records
presently in the collection (the `untrack` sweep registers none). -/
structure SysInv (s : RSys) : Prop where
  nodup : (akeys s.w.recordCaches).Nodup
  wf : ∀ p ∈ s.w.recordCaches, p.2.hasBeenAdded = true
  auto : ∀ r, autoRun false (eventsOf r s.log) = some (alookup r s.w.recordCaches).isSome
  snapA : ∀ a ds, s.w.arraySnap = some (a, ds) → a ≤ s.env.arrRev
  snapD : ∀ a ds, s.w.arraySnap = some (a, ds) → ∀ p ∈ ds, p.2 ≤ s.env.recRev p.1
  validKeys : arrayValid s.env s.w = true →
    ∀ r, r ∈ s.env.recs ↔ (alookup r s.w.recordCaches).isSome = true
  depsRecs : ∀ a ds, s.w.arraySnap = some (a, ds) → a = s.env.arrRev →
    ∀ p ∈ ds, p.1 ∈ s.env.recs

/-! ### Association-list lemmas -/

theorem alookup_eq_none {α : Type} (k : Nat) (l : List (Nat × α)) :
    alookup k l = none ↔ k ∉ akeys l := by
  induction l with
  | nil => simp [alookup, akeys]
  | cons p l ih =>
    by_cases h : p.1 = k
    · simp [alookup, h, akeys]
    · rw [alookup, if_neg h, ih]
      simp only [akeys, List.map_cons, List.mem_cons]
      constructor
      · intro hn h2
        rcases h2 with h2 | h2
        · exact h h2.symm
        · exact hn h2
      · intro hn h2
        exact hn (Or.inr h2)

theorem alookup_isSome {α : Type} (k : Nat) (l : List (Nat × α)) :
    (alookup k l).isSome = true ↔ k ∈ akeys l := by
  rw [Option.isSome_iff_ne_none, ne_eq, alookup_eq_none, not_not]

theorem alookup_mem {α : Type} {k : Nat} {v : α} {l : List (Nat × α)} :
    alookup k l = some v → (k, v) ∈ l := by
  induction l with
  | nil => simp [alookup]
  | cons p l ih =>
    rw [alookup]
    by_cases h : p.1 = k
    · rw [if_pos h]
      intro hv
      have hp : p = (k, v) := by
        obtain ⟨p1, p2⟩ := p
        simp only [Option.some_inj] at hv
        simp only [Prod.mk.injEq]
        exact ⟨h, hv⟩
      rw [hp]
      exact List.mem_cons_self _ _
    · rw [if_neg h]
      intro hv
      exact List.mem_cons_of_mem _ (ih hv)

theorem alookup_append_none {α : Type} {k : Nat} {l1 : List (Nat × α)} (l2 : List (Nat × α))
    (h : alookup k l1 = none) : alookup k (l1 ++ l2) = alookup k l2 := by
  induction l1 with
  | nil => simp
  | cons p l ih =>
    by_cases hp : p.1 = k
    · simp [alookup, hp] at h
    · simp only [alookup, hp, if_neg, not_false_iff, List.cons_append]
      exact ih (by simpa [alookup, hp] using h)

theorem alookup_append_some {α : Type} {k : Nat} {v : α} {l1 : List (Nat × α)}
    (l2 : List (Nat × α)) (h : alookup k l1 = some v) :
    alookup k (l1 ++ l2) = some v := by
  induction l1 with
  | nil => simp [alookup] at h
  | cons p l ih =>
    by_cases hp : p.1 = k
    · simp_all [alookup, hp]
    · simp only [alookup, hp, if_neg, not_false_iff, List.cons_append] at h ⊢
      exact ih h

theorem akeys_aupdate {α : Type} (k : Nat) (v : α) (l : List (Nat × α)) :
    akeys (aupdate k v l) = akeys l := by
  induction l with
  | nil => rfl
  | cons p l ih =>
    by_cases hp : p.1 = k
    · simp [aupdate, hp, akeys]
    · simp [aupdate, hp, akeys] at ih ⊢
      exact ih

theorem alookup_aupdate_self {α : Type} {k : Nat} (v : α) {l : List (Nat × α)}
    (h : k ∈ akeys l) : alookup k (aupdate k v l) = some v := by
  induction l with
  | nil => simp [akeys] at h
  | cons p l ih =>
    by_cases hp : p.1 = k
    · simp [aupdate, hp, alookup]
    · have : k ∈ akeys l := by
        simp [akeys] at h
        rcases h with h | h
        · exact absurd h.symm hp
        · simpa [akeys] using h
      simp only [aupdate, hp, if_neg, not_false_iff, alookup]
      exact ih this

theorem alookup_aupdate_other {α : Type} {k k' : Nat} (v : α) (l : List (Nat × α))
    (h : k' ≠ k) : alookup k' (aupdate k v l) = alookup k' l := by
  induction l with
  | nil => rfl
  | cons p l ih =>
    by_cases hp : p.1 = k
    · have : ¬ (k = k') := fun hh => h hh.symm
      simp [aupdate, hp, alookup, this]
    · simp only [aupdate, hp, if_neg, not_false_iff, alookup]
      by_cases hp' : p.1 = k'
      · simp [hp']
      · simp [hp', ih]

theorem mem_aupdate {α : Type} {k : Nat} {v : α} {p : Nat × α} {l : List (Nat × α)} :
    p ∈ aupdate k v l → p ∈ l ∨ p = (k, v) := by
  induction l with
  | nil => intro h; simp [aupdate] at h
  | cons q l ih =>
    intro h
    by_cases hq : q.1 = k
    · rw [aupdate, if_pos hq] at h
      rcases List.mem_cons.1 h with h | h
      · right; exact h
      · left; exact List.mem_cons_of_mem _ h
    · rw [aupdate, if_neg hq] at h
      rcases List.mem_cons.1 h with h | h
      · left
        rw [h]
        exact List.mem_cons_self _ _
      · rcases ih h with h2 | h2
        · left; exact List.mem_cons_of_mem _ h2
        · right; exact h2

theorem mem_aerase {α : Type} {k : Nat} {p : Nat × α} {l : List (Nat × α)} :
    p ∈ aerase k l ↔ p ∈ l ∧ p.1 ≠ k := by
  induction l with
  | nil => simp [aerase]
  | cons q l ih =>
    by_cases hq : q.1 = k
    · simp only [aerase, hq, if_pos, ih, List.mem_cons]
      constructor
      · rintro ⟨h1, h2⟩; exact ⟨Or.inr h1, h2⟩
      · rintro ⟨h1 | h1, h2⟩
        · subst h1; exact absurd hq h2
        · exact ⟨h1, h2⟩
    · simp only [aerase, hq, if_neg, not_false_iff, List.mem_cons, ih]
      constructor
      · rintro (h | ⟨h1, h2⟩)
        · subst h; exact ⟨Or.inl rfl, hq⟩
        · exact ⟨Or.inr h1, h2⟩
      · rintro ⟨h1 | h1, h2⟩
        · exact Or.inl h1
        · exact Or.inr ⟨h1, h2⟩

theorem aerase_sublist {α : Type} (k : Nat) (l : List (Nat × α)) :
    (aerase k l).Sublist l := by
  induction l with
  | nil => simp [aerase]
  | cons q l ih =>
    by_cases hq : q.1 = k
    · simp only [aerase, hq, if_pos]
      exact ih.cons _
    · simp only [aerase, hq, if_neg, not_false_iff]
      exact ih.cons₂ _

theorem aerase_of_not_mem {α : Type} {k : Nat} {l : List (Nat × α)} :
    k ∉ akeys l → aerase k l = l := by
  induction l with
  | nil => intro _; rfl
  | cons q l ih =>
    intro h
    simp only [akeys, List.map_cons, List.mem_cons] at h
    push_neg at h
    rw [aerase, if_neg (fun hh : q.1 = k => h.1 hh.symm), ih (by simpa [akeys] using h.2)]

theorem aerase_head {α : Type} {k : Nat} {v : α} {l : List (Nat × α)}
    (h : k ∉ akeys l) : aerase k ((k, v) :: l) = l := by
  simp only [aerase, if_pos]
  exact aerase_of_not_mem h

theorem alookup_filter {α : Type} (k : Nat) (f : Nat → Bool) (l : List (Nat × α)) :
    alookup k (l.filter (fun p => f p.1)) = if f k then alookup k l else none := by
  induction l with
  | nil => simp [alookup]
  | cons p l ih =>
    by_cases hp : p.1 = k
    · subst hp
      by_cases hf : f p.1
      · simp [List.filter_cons, hf, alookup, ih]
      · simp only [List.filter_cons]
        rw [if_neg (by simpa using hf)]
        simp [alookup, ih, hf]
    · by_cases hf : f p.1
      · simp only [List.filter_cons, hf, if_pos, alookup, hp, if_neg, not_false_iff]
        exact ih
      · simp only [List.filter_cons]
        rw [if_neg (by simpa using hf)]
        rw [ih, alookup, if_neg hp]

theorem mem_akeys_filter {α : Type} {k : Nat} {f : Nat → Bool} {l : List (Nat × α)} :
    k ∈ akeys (l.filter (fun p => f p.1)) ↔ k ∈ akeys l ∧ f k = true := by
  simp only [akeys, List.mem_map]
  constructor
  · rintro ⟨p, hp, rfl⟩
    rw [List.mem_filter] at hp
    exact ⟨⟨p, hp.1, rfl⟩, hp.2⟩
  · rintro ⟨⟨p, hp, rfl⟩, hf⟩
    exact ⟨p, List.mem_filter.2 ⟨hp, hf⟩, rfl⟩

/-! ### Report-automaton lemmas -/

theorem autoRun_append (l1 l2 : List REv) :
    ∀ b, autoRun b (l1 ++ l2) = (autoRun b l1).bind (fun b2 => autoRun b2 l2) := by
  induction l1 with
  | nil => intro b; simp [autoRun]
  | cons e l ih =>
    intro b
    cases b <;> cases e <;> simp [autoRun, ih]

theorem autoRun_false_head {e : REv} {l : List REv} {b : Bool}
    (h : autoRun false (e :: l) = some b) : e = REv.A := by
  cases e <;> simp [autoRun] at h ⊢

theorem A_mem_eventsOfRun {r : Nat} {d : RunDiff} :
    REv.A ∈ eventsOfRun r d ↔ r ∈ d.added := by
  unfold eventsOfRun
  by_cases h1 : r ∈ d.added <;> by_cases h2 : r ∈ d.updated <;>
    by_cases h3 : r ∈ d.removed <;> simp [h1, h2, h3]

theorem A_mem_eventsOf {r : Nat} {log : List RunDiff} :
    REv.A ∈ eventsOf r log ↔ r ∈ unionAdded log := by
  induction log with
  | nil => simp [eventsOf, unionAdded]
  | cons d l ih => simp [eventsOf, unionAdded, A_mem_eventsOfRun, ih]

theorem mem_unionAdded_of_events {r : Nat} {log : List RunDiff} {b : Bool}
    (h : autoRun false (eventsOf r log) = some b) (hne : eventsOf r log ≠ []) :
    r ∈ unionAdded log := by
  rcases hev : eventsOf r log with _ | ⟨e, es⟩
  · exact absurd hev hne
  · rw [hev] at h
    have heA := autoRun_false_head h
    rw [← A_mem_eventsOf, hev, heA]
    exact List.mem_cons_self _ _

/-! ### Counting helpers -/

theorem count_if_single_ne {r x : Nat} (h : r ≠ x) (c : Prop) [Decidable c] :
    (if c then [x] else []).count r = 0 := by
  split
  · exact List.count_eq_zero.2 (by simp [h])
  · simp

theorem alookup_append_single_other {α : Type} {r x : Nat} (v : α) (l : List (Nat × α))
    (h : r ≠ x) : alookup r (l ++ [(x, v)]) = alookup r l := by
  cases hl : alookup r l with
  | some w => exact alookup_append_some _ hl
  | none =>
    rw [alookup_append_none _ hl, alookup, alookup]
    simp only [if_neg (fun hh : x = r => h hh.symm)]

/-! ### Characterization of one loop iteration of `recordArrayCache` -/

theorem stepRecord_none (env : RecEnv) (acc : RunAcc) {x : Nat}
    (h : alookup x acc.caches = none) :
    stepRecord env acc x =
      ⟨acc.caches ++ [(x, curCache env x)], acc.added ++ [x], acc.updated,
        acc.deps ++ [(x, env.recRev x)]⟩ := by
  unfold stepRecord
  rw [h]
  simp [getValueRec, curCache]

theorem stepRecord_valid (env : RecEnv) (acc : RunAcc) {x : Nat} {c : RecordCache}
    (h : alookup x acc.caches = some c) (hsnap : c.snap = some (env.recRev x)) :
    stepRecord env acc x =
      ⟨aupdate x c acc.caches, acc.added, acc.updated, acc.deps ++ [(x, env.recRev x)]⟩ := by
  unfold stepRecord
  rw [h]
  simp [getValueRec, hsnap]

theorem stepRecord_stale (env : RecEnv) (acc : RunAcc) {x : Nat} {c : RecordCache}
    (h : alookup x acc.caches = some c) (hsnap : c.snap ≠ some (env.recRev x))
    (hadd : c.hasBeenAdded = true) :
    stepRecord env acc x =
      ⟨aupdate x (curCache env x) acc.caches, acc.added, acc.updated ++ [x],
        acc.deps ++ [(x, env.recRev x)]⟩ := by
  unfold stepRecord
  rw [h]
  cases hs : c.snap with
  | none => simp [getValueRec, hs, hadd, curCache]
  | some v =>
    have hv : v ≠ env.recRev x := fun hh => hsnap (by rw [hs, hh])
    simp [getValueRec, hs, hv, hadd, curCache]

theorem stepRecord_other (env : RecEnv) (acc : RunAcc) {x r : Nat} (h : r ≠ x) :
    alookup r (stepRecord env acc x).caches = alookup r acc.caches ∧
    (stepRecord env acc x).added.count r = acc.added.count r ∧
    (stepRecord env acc x).updated.count r = acc.updated.count r := by
  unfold stepRecord
  cases hx : alookup x acc.caches with
  | none =>
    refine ⟨alookup_append_single_other _ _ h, ?_, ?_⟩ <;>
      simp [List.count_append, count_if_single_ne h]
  | some c =>
    refine ⟨alookup_aupdate_other _ _ h, ?_, ?_⟩ <;>
      simp [List.count_append, count_if_single_ne h]

theorem stepRecord_deps (env : RecEnv) (acc : RunAcc) (x : Nat) :
    (stepRecord env acc x).deps = acc.deps ++ [(x, env.recRev x)] := by
  unfold stepRecord
  cases hx : alookup x acc.caches <;> rfl

/-! ### Fold lemmas for the collection iteration -/

theorem fold_touched (env : RecEnv) (r : Nat) :
    ∀ (l : List Nat) (acc : RunAcc), alookup r acc.caches = some (curCache env r) →
      alookup r (l.foldl (stepRecord env) acc).caches = some (curCache env r) ∧
      (l.foldl (stepRecord env) acc).added.count r = acc.added.count r ∧
      (l.foldl (stepRecord env) acc).updated.count r = acc.updated.count r := by
  intro l
  induction l with
  | nil => intro acc h; exact ⟨h, rfl, rfl⟩
  | cons x l ih =>
    intro acc h
    rw [List.foldl_cons]
    by_cases hx : r = x
    · subst hx
      rw [stepRecord_valid env acc h rfl]
      have hmem : r ∈ akeys acc.caches := (alookup_isSome r _).1 (by rw [h]; rfl)
      have h2 : alookup r (aupdate r (curCache env r) acc.caches) = some (curCache env r) :=
        alookup_aupdate_self _ hmem
      exact ih _ h2
    · obtain ⟨e1, e2, e3⟩ := stepRecord_other env acc hx
      obtain ⟨g1, g2, g3⟩ := ih _ (e1.trans h)
      exact ⟨g1, g2.trans e2, g3.trans e3⟩

theorem fold_fresh (env : RecEnv) (r : Nat) :
    ∀ (l : List Nat) (acc : RunAcc),
      alookup r acc.caches = none → acc.added.count r = 0 → acc.updated.count r = 0 →
      (r ∈ l →
        alookup r (l.foldl (stepRecord env) acc).caches = some (curCache env r) ∧
        (l.foldl (stepRecord env) acc).added.count r = 1 ∧
        (l.foldl (stepRecord env) acc).updated.count r = 0) ∧
      (r ∉ l →
        alookup r (l.foldl (stepRecord env) acc).caches = none ∧
        (l.foldl (stepRecord env) acc).added.count r = 0 ∧
        (l.foldl (stepRecord env) acc).updated.count r = 0) := by
  intro l
  induction l with
  | nil =>
    intro acc h ha hu
    exact ⟨fun hmem => absurd hmem (List.not_mem_nil r), fun _ => ⟨h, ha, hu⟩⟩
  | cons x l ih =>
    intro acc h ha hu
    rw [List.foldl_cons]
    by_cases hx : r = x
    · subst hx
      rw [stepRecord_none env acc h]
      have h2 : alookup r (acc.caches ++ [(r, curCache env r)]) = some (curCache env r) := by
        rw [alookup_append_none _ h, alookup]
        simp
      obtain ⟨g1, g2, g3⟩ := fold_touched env r l
        ⟨acc.caches ++ [(r, curCache env r)], acc.added ++ [r], acc.updated,
          acc.deps ++ [(r, env.recRev r)]⟩ h2
      constructor
      · intro _
        refine ⟨g1, ?_, ?_⟩
        · rw [g2]
          simp [List.count_append, ha]
        · rw [g3]
          exact hu
      · intro hmem
        exact absurd (List.mem_cons_self r l) hmem
    · obtain ⟨e1, e2, e3⟩ := stepRecord_other env acc hx
      obtain ⟨g1, g2⟩ := ih _ (e1.trans h) (e2.trans ha) (e3.trans hu)
      constructor
      · intro hmem
        have : r ∈ l := by
          rcases List.mem_cons.1 hmem with hm | hm
          · exact absurd hm hx
          · exact hm
        exact g1 this
      · intro hmem
        exact g2 (fun hm => hmem (List.mem_cons_of_mem _ hm))

theorem fold_old (env : RecEnv) (r : Nat) :
    ∀ (l : List Nat) (acc : RunAcc) (c : RecordCache),
      alookup r acc.caches = some c → c.hasBeenAdded = true →
      acc.added.count r = 0 → acc.updated.count r = 0 →
      (r ∈ l →
        alookup r (l.foldl (stepRecord env) acc).caches = some (curCache env r) ∧
        (l.foldl (stepRecord env) acc).added.count r = 0 ∧
        (l.foldl (stepRecord env) acc).updated.count r ≤ 1) ∧
      (r ∉ l →
        alookup r (l.foldl (stepRecord env) acc).caches = some c ∧
        (l.foldl (stepRecord env) acc).added.count r = 0 ∧
        (l.foldl (stepRecord env) acc).updated.count r = 0) := by
  intro l
  induction l with
  | nil =>
    intro acc c h hb ha hu
    exact ⟨fun hmem => absurd hmem (List.not_mem_nil r), fun _ => ⟨h, ha, hu⟩⟩
  | cons x l ih =>
    intro acc c h hb ha hu
    rw [List.foldl_cons]
    by_cases hx : r = x
    · subst hx
      have hmem : r ∈ akeys acc.caches := (alookup_isSome r _).1 (by rw [h]; rfl)
      by_cases hsnap : c.snap = some (env.recRev r)
      · have hc : c = curCache env r := by
          obtain ⟨c1, c2⟩ := c
          simp only at hb hsnap
          rw [curCache, hb, hsnap]
        rw [stepRecord_valid env acc h hsnap]
        have h2 : alookup r (aupdate r c acc.caches) = some (curCache env r) := by
          rw [alookup_aupdate_self c hmem, hc]
        obtain ⟨g1, g2, g3⟩ := fold_touched env r l
          ⟨aupdate r c acc.caches, acc.added, acc.updated, acc.deps ++ [(r, env.recRev r)]⟩ h2
        refine ⟨fun _ => ⟨g1, g2.trans ha, ?_⟩, fun hm => absurd (List.mem_cons_self r l) hm⟩
        rw [g3, hu]
        exact Nat.zero_le 1
      · rw [stepRecord_stale env acc h hsnap hb]
        have h2 : alookup r (aupdate r (curCache env r) acc.caches) = some (curCache env r) :=
          alookup_aupdate_self _ hmem
        obtain ⟨g1, g2, g3⟩ := fold_touched env r l
          ⟨aupdate r (curCache env r) acc.caches, acc.added, acc.updated ++ [r],
            acc.deps ++ [(r, env.recRev r)]⟩ h2
        refine ⟨fun _ => ⟨g1, g2.trans ha, ?_⟩, fun hm => absurd (List.mem_cons_self r l) hm⟩
        rw [g3]
        simp [List.count_append, hu]
    · obtain ⟨e1, e2, e3⟩ := stepRecord_other env acc hx
      obtain ⟨g1, g2⟩ := ih _ c (e1.trans h) hb (e2.trans ha) (e3.trans hu)
      constructor
      · intro hmem
        have : r ∈ l := by
          rcases List.mem_cons.1 hmem with hm | hm
          · exact absurd hm hx
          · exact hm
        exact g1 this
      · intro hmem
        exact g2 (fun hm => hmem (List.mem_cons_of_mem _ hm))

theorem mem_of_count_ne_zero {l : List Nat} {a : Nat} (h : l.count a ≠ 0) : a ∈ l := by
  by_contra hm
  exact h (List.count_eq_zero.2 hm)

theorem stepRecord_nodup (env : RecEnv) (acc : RunAcc) (x : Nat)
    (h : (akeys acc.caches).Nodup) : (akeys (stepRecord env acc x).caches).Nodup := by
  unfold stepRecord
  cases hx : alookup x acc.caches with
  | none =>
    simp only [akeys, List.map_append, List.map_cons, List.map_nil]
    rw [List.nodup_append]
    refine ⟨h, List.nodup_singleton x, ?_⟩
    intro a ha hb
    simp only [List.mem_singleton] at hb
    subst hb
    exact (alookup_eq_none a acc.caches).1 hx ha
  | some c =>
    show (akeys (aupdate x (getValueRec env x c).1 acc.caches)).Nodup
    rw [akeys_aupdate]
    exact h

theorem fold_nodup (env : RecEnv) :
    ∀ (l : List Nat) (acc : RunAcc), (akeys acc.caches).Nodup →
      (akeys ((l.foldl (stepRecord env) acc)).caches).Nodup := by
  intro l
  induction l with
  | nil => intro acc h; exact h
  | cons x l ih =>
    intro acc h
    rw [List.foldl_cons]
    exact ih _ (stepRecord_nodup env acc x h)

theorem stepRecord_wfAll (env : RecEnv) (acc : RunAcc) (x : Nat)
    (h : ∀ p ∈ acc.caches, p.2.hasBeenAdded = true) :
    ∀ p ∈ (stepRecord env acc x).caches, p.2.hasBeenAdded = true := by
  unfold stepRecord
  cases hx : alookup x acc.caches with
  | none =>
    intro p hp
    rcases List.mem_append.1 hp with hp | hp
    · exact h p hp
    · simp only [List.mem_singleton] at hp
      subst hp
      rfl
  | some c =>
    intro p hp
    rcases mem_aupdate hp with hp | hp
    · exact h p hp
    · subst hp
      cases hs : c.snap with
      | none => simp [getValueRec, hs]
      | some v =>
        by_cases hv : v = env.recRev x
        · simp only [getValueRec, hs, if_pos hv]
          exact h _ (alookup_mem hx)
        · simp [getValueRec, hs, hv]

theorem fold_wfAll (env : RecEnv) :
    ∀ (l : List Nat) (acc : RunAcc), (∀ p ∈ acc.caches, p.2.hasBeenAdded = true) →
      ∀ p ∈ ((l.foldl (stepRecord env) acc)).caches, p.2.hasBeenAdded = true := by
  intro l
  induction l with
  | nil => intro acc h; exact h
  | cons x l ih =>
    intro acc h
    rw [List.foldl_cons]
    exact ih _ (stepRecord_wfAll env acc x h)

theorem fold_deps (env : RecEnv) :
    ∀ (l : List Nat) (acc : RunAcc) (p : Nat × Nat),
      p ∈ ((l.foldl (stepRecord env) acc)).deps →
      p ∈ acc.deps ∨ (p.1 ∈ l ∧ p.2 = env.recRev p.1) := by
  intro l
  induction l with
  | nil => intro acc p hp; exact Or.inl hp
  | cons x l ih =>
    intro acc p hp
    rw [List.foldl_cons] at hp
    rcases ih _ p hp with h | h
    · rw [stepRecord_deps] at h
      rcases List.mem_append.1 h with h | h
      · exact Or.inl h
      · simp only [List.mem_singleton] at h
        subst h
        exact Or.inr ⟨List.mem_cons_self _ _, rfl⟩
    · exact Or.inr ⟨List.mem_cons_of_mem _ h.1, h.2⟩

/-! ### Characterization of one executed `recordArrayCache` evaluation -/

theorem runArray_eq (env : RecEnv) (caches0 : List (Nat × RecordCache)) :
    runArray env caches0 =
      ((env.recs.foldl (stepRecord env) ⟨caches0, [], [], []⟩).caches.filter
          (fun p => decide (p.1 ∈ env.recs)),
        ⟨(env.recs.foldl (stepRecord env) ⟨caches0, [], [], []⟩).added,
          (env.recs.foldl (stepRecord env) ⟨caches0, [], [], []⟩).updated,
          ((env.recs.foldl (stepRecord env) ⟨caches0, [], [], []⟩).caches.filter
              (fun p => decide (p.1 ∉ env.recs))).map Prod.fst⟩,
        (env.recs.foldl (stepRecord env) ⟨caches0, [], [], []⟩).deps) := rfl

theorem mem_removed_iff (env : RecEnv) (caches0 : List (Nat × RecordCache)) (r : Nat) :
    r ∈ (runArray env caches0).2.1.removed ↔
      r ∈ akeys ((env.recs.foldl (stepRecord env) ⟨caches0, [], [], []⟩)).caches ∧
        r ∉ env.recs := by
  rw [runArray_eq]
  have h := mem_akeys_filter (k := r)
    (f := fun k => decide (k ∉ env.recs))
    (l := (env.recs.foldl (stepRecord env) ⟨caches0, [], [], []⟩).caches)
  simp only [decide_eq_true_eq] at h
  exact h

theorem alookup_runArray_caches (env : RecEnv) (caches0 : List (Nat × RecordCache)) (r : Nat) :
    alookup r (runArray env caches0).1 =
      if r ∈ env.recs then
        alookup r ((env.recs.foldl (stepRecord env) ⟨caches0, [], [], []⟩)).caches
      else none := by
  rw [runArray_eq]
  have h := alookup_filter r (fun k => decide (k ∈ env.recs))
    ((env.recs.foldl (stepRecord env) ⟨caches0, [], [], []⟩)).caches
  simp only [decide_eq_true_eq] at h
  exact h

theorem runArray_char (env : RecEnv) (caches0 : List (Nat × RecordCache))
    (hwf : ∀ p ∈ caches0, p.2.hasBeenAdded = true) (r : Nat) :
    (alookup r caches0 = none → r ∈ env.recs →
      eventsOfRun r (runArray env caches0).2.1 = [REv.A] ∧
      r ∈ (runArray env caches0).2.1.added ∧
      alookup r (runArray env caches0).1 = some (curCache env r)) ∧
    (alookup r caches0 = none → r ∉ env.recs →
      eventsOfRun r (runArray env caches0).2.1 = [] ∧
      alookup r (runArray env caches0).1 = none) ∧
    (∀ c, alookup r caches0 = some c → r ∈ env.recs →
      (eventsOfRun r (runArray env caches0).2.1 = [] ∨
        eventsOfRun r (runArray env caches0).2.1 = [REv.U]) ∧
      alookup r (runArray env caches0).1 = some (curCache env r)) ∧
    (∀ c, alookup r caches0 = some c → r ∉ env.recs →
      eventsOfRun r (runArray env caches0).2.1 = [REv.R] ∧
      alookup r (runArray env caches0).1 = none) := by
  have hadded : (runArray env caches0).2.1.added =
      ((env.recs.foldl (stepRecord env) ⟨caches0, [], [], []⟩)).added := by
    rw [runArray_eq]
  have hupdated : (runArray env caches0).2.1.updated =
      ((env.recs.foldl (stepRecord env) ⟨caches0, [], [], []⟩)).updated := by
    rw [runArray_eq]
  refine ⟨?_, ?_, ?_, ?_⟩
  · intro h0 hr
    obtain ⟨g1, g2, g3⟩ := (fold_fresh env r env.recs ⟨caches0, [], [], []⟩ h0 rfl rfl).1 hr
    have hA : r ∈ (runArray env caches0).2.1.added := by
      rw [hadded]
      exact mem_of_count_ne_zero (by rw [g2]; exact one_ne_zero)
    have hU : r ∉ (runArray env caches0).2.1.updated := by
      rw [hupdated]
      exact List.count_eq_zero.1 g3
    have hR : r ∉ (runArray env caches0).2.1.removed := by
      rw [mem_removed_iff]
      exact fun hh => hh.2 hr
    refine ⟨?_, hA, ?_⟩
    · rw [eventsOfRun, if_pos hA, if_neg hU, if_neg hR]
      rfl
    · rw [alookup_runArray_caches, if_pos hr, g1]
  · intro h0 hr
    obtain ⟨g1, g2, g3⟩ := (fold_fresh env r env.recs ⟨caches0, [], [], []⟩ h0 rfl rfl).2 hr
    have hA : r ∉ (runArray env caches0).2.1.added := by
      rw [hadded]
      exact List.count_eq_zero.1 g2
    have hU : r ∉ (runArray env caches0).2.1.updated := by
      rw [hupdated]
      exact List.count_eq_zero.1 g3
    have hR : r ∉ (runArray env caches0).2.1.removed := by
      rw [mem_removed_iff]
      intro hh
      exact ((alookup_eq_none r _).1 g1) hh.1
    refine ⟨?_, ?_⟩
    · rw [eventsOfRun, if_neg hA, if_neg hU, if_neg hR]
      rfl
    · rw [alookup_runArray_caches, if_neg hr]
  · intro c h0 hr
    have hb : c.hasBeenAdded = true := hwf _ (alookup_mem h0)
    obtain ⟨g1, g2, g3⟩ :=
      (fold_old env r env.recs ⟨caches0, [], [], []⟩ c h0 hb rfl rfl).1 hr
    have hA : r ∉ (runArray env caches0).2.1.added := by
      rw [hadded]
      exact List.count_eq_zero.1 g2
    have hR : r ∉ (runArray env caches0).2.1.removed := by
      rw [mem_removed_iff]
      exact fun hh => hh.2 hr
    refine ⟨?_, ?_⟩
    · by_cases hU : r ∈ (runArray env caches0).2.1.updated
      · right
        rw [eventsOfRun, if_neg hA, if_pos hU, if_neg hR]
        rfl
      · left
        rw [eventsOfRun, if_neg hA, if_neg hU, if_neg hR]
        rfl
    · rw [alookup_runArray_caches, if_pos hr, g1]
  · intro c h0 hr
    obtain ⟨g1, g2, g3⟩ :=
      (fold_old env r env.recs ⟨caches0, [], [], []⟩ c h0 (hwf _ (alookup_mem h0)) rfl rfl).2 hr
    have hA : r ∉ (runArray env caches0).2.1.added := by
      rw [hadded]
      exact List.count_eq_zero.1 g2
    have hU : r ∉ (runArray env caches0).2.1.updated := by
      rw [hupdated]
      exact List.count_eq_zero.1 g3
    have hR : r ∈ (runArray env caches0).2.1.removed := by
      rw [mem_removed_iff]
      exact ⟨(alookup_isSome r _).1 (by rw [g1]; rfl), hr⟩
    refine ⟨?_, ?_⟩
    · rw [eventsOfRun, if_neg hA, if_neg hU, if_pos hR]
      rfl
    · rw [alookup_runArray_caches, if_neg hr]

theorem runArray_deps (env : RecEnv) (caches0 : List (Nat × RecordCache)) :
    ∀ p ∈ (runArray env caches0).2.2, p.1 ∈ env.recs ∧ p.2 = env.recRev p.1 := by
  intro p hp
  rw [runArray_eq] at hp
  rcases fold_deps env env.recs ⟨caches0, [], [], []⟩ p hp with h | h
  · exact absurd h (List.not_mem_nil p)
  · exact h

theorem stepRecord_added_sub (env : RecEnv) (acc : RunAcc) (x : Nat) :
    ∀ q ∈ (stepRecord env acc x).added, q ∈ acc.added ∨ q = x := by
  unfold stepRecord
  cases hx : alookup x acc.caches <;>
  · intro q hq
    rcases List.mem_append.1 hq with h | h
    · exact Or.inl h
    · right
      rcases Classical.em _ with he | he
      · rw [if_pos he] at h
        simpa using h
      · rw [if_neg he] at h
        simp at h

theorem fold_added_sub (env : RecEnv) :
    ∀ (l : List Nat) (acc : RunAcc) (q : Nat),
      q ∈ ((l.foldl (stepRecord env) acc)).added → q ∈ acc.added ∨ q ∈ l := by
  intro l
  induction l with
  | nil => intro acc q hq; exact Or.inl hq
  | cons x l ih =>
    intro acc q hq
    rw [List.foldl_cons] at hq
    rcases ih _ q hq with h | h
    · rcases stepRecord_added_sub env acc x q h with h2 | h2
      · exact Or.inl h2
      · exact Or.inr (h2 ▸ List.mem_cons_self _ _)
    · exact Or.inr (List.mem_cons_of_mem _ h)

theorem runArray_added_sub (env : RecEnv) (caches0 : List (Nat × RecordCache)) :
    ∀ r ∈ (runArray env caches0).2.1.added, r ∈ env.recs := by
  intro r hr
  rw [runArray_eq] at hr
  rcases fold_added_sub env env.recs ⟨caches0, [], [], []⟩ r hr with h | h
  · exact absurd h (List.not_mem_nil r)
  · exact h

theorem runArray_nodup (env : RecEnv) (caches0 : List (Nat × RecordCache))
    (h : (akeys caches0).Nodup) : (akeys (runArray env caches0).1).Nodup := by
  rw [runArray_eq]
  have hf := fold_nodup env env.recs ⟨caches0, [], [], []⟩ h
  have hsub : ((env.recs.foldl (stepRecord env) ⟨caches0, [], [], []⟩).caches.filter
      (fun p => decide (p.1 ∈ env.recs))).Sublist
      (env.recs.foldl (stepRecord env) ⟨caches0, [], [], []⟩).caches :=
    List.filter_sublist _
  exact List.Nodup.sublist (hsub.map Prod.fst) hf

theorem runArray_wfAll (env : RecEnv) (caches0 : List (Nat × RecordCache))
    (h : ∀ p ∈ caches0, p.2.hasBeenAdded = true) :
    ∀ p ∈ (runArray env caches0).1, p.2.hasBeenAdded = true := by
  intro p hp
  rw [runArray_eq] at hp
  exact fold_wfAll env env.recs ⟨caches0, [], [], []⟩ h p (List.mem_filter.1 hp).1

/-! ### Validity and revalidation -/

theorem arrayValid_none {env : RecEnv} {w : RWatcher} (h : w.arraySnap = none) :
    arrayValid env w = false := by
  unfold arrayValid
  rw [h]

theorem arrayValid_some_iff {env : RecEnv} {w : RWatcher} {a : Nat} {ds : List (Nat × Nat)}
    (h : w.arraySnap = some (a, ds)) :
    arrayValid env w = true ↔ (a = env.arrRev ∧ ∀ p ∈ ds, env.recRev p.1 = p.2) := by
  unfold arrayValid
  rw [h]
  simp [List.all_eq_true]

theorem revalidateR_of_valid {env : RecEnv} {w : RWatcher} (h : arrayValid env w = true) :
    revalidateR env w = (w, none) := by
  unfold revalidateR
  rw [if_pos h]

theorem revalidateR_of_invalid {env : RecEnv} {w : RWatcher} (h : arrayValid env w = false) :
    revalidateR env w =
      (⟨(runArray env w.recordCaches).1,
          some (env.arrRev, (runArray env w.recordCaches).2.2)⟩,
        some (runArray env w.recordCaches).2.1) := by
  unfold revalidateR
  rw [if_neg (by rw [h]; exact Bool.false_ne_true)]

theorem arrayValid_after (env : RecEnv) (w : RWatcher) :
    arrayValid env (revalidateR env w).1 = true := by
  cases hv : arrayValid env w with
  | true =>
    rw [revalidateR_of_valid hv]
    exact hv
  | false =>
    rw [revalidateR_of_invalid hv]
    rw [arrayValid_some_iff rfl]
    exact ⟨rfl, fun p hp => ((runArray_deps env w.recordCaches p hp).2).symm⟩

theorem revalidateR_idem (env : RecEnv) (w : RWatcher) :
    revalidateR env (revalidateR env w).1 = ((revalidateR env w).1, none) :=
  revalidateR_of_valid (arrayValid_after env w)

/-! ### Trace-step normal forms -/

theorem rstep_reval_of_valid {s : RSys} (h : arrayValid s.env s.w = true) :
    rstep s ROp.reval = s := by
  unfold rstep
  rw [revalidateR_of_valid h]
  simp

theorem rstep_reval_of_invalid {s : RSys} (h : arrayValid s.env s.w = false) :
    rstep s ROp.reval =
      ⟨s.env,
        ⟨(runArray s.env s.w.recordCaches).1,
          some (s.env.arrRev, (runArray s.env s.w.recordCaches).2.2)⟩,
        s.log ++ [(runArray s.env s.w.recordCaches).2.1]⟩ := by
  unfold rstep
  rw [revalidateR_of_invalid h]

theorem rstep_add (s : RSys) (r : Nat) :
    rstep s (ROp.add r) = ⟨stepEnv (ROp.add r) s.env, s.w, s.log⟩ := rfl

theorem rstep_remove (s : RSys) (r : Nat) :
    rstep s (ROp.remove r) = ⟨stepEnv (ROp.remove r) s.env, s.w, s.log⟩ := rfl

theorem rstep_mutate (s : RSys) (r : Nat) :
    rstep s (ROp.mutate r) = ⟨stepEnv (ROp.mutate r) s.env, s.w, s.log⟩ := rfl

theorem unionAdded_append (l1 l2 : List RunDiff) :
    unionAdded (l1 ++ l2) = unionAdded l1 ++ unionAdded l2 := by
  induction l1 with
  | nil => rfl
  | cons d l ih => simp [unionAdded, ih]

theorem eventsOf_append (r : Nat) (l1 l2 : List RunDiff) :
    eventsOf r (l1 ++ l2) = eventsOf r l1 ++ eventsOf r l2 := by
  induction l1 with
  | nil => rfl
  | cons d l ih => simp [eventsOf, ih]

/-! ### Invariant preservation -/

theorem sysInv_init : SysInv rinit := by
  refine ⟨List.nodup_nil, ?_, ?_, ?_, ?_, ?_, ?_⟩
  · intro p hp
    exact absurd hp (List.not_mem_nil p)
  · intro r
    rfl
  · intro a ds h
    exact absurd h (by simp [rinit])
  · intro a ds h
    exact absurd h (by simp [rinit])
  · intro h
    exact absurd h (by simp [rinit, arrayValid])
  · intro a ds h
    exact absurd h (by simp [rinit])

theorem arrayValid_bump {env env' : RecEnv} {w : RWatcher}
    (hA : ∀ a ds, w.arraySnap = some (a, ds) → a ≤ env.arrRev)
    (hb : env'.arrRev = env.arrRev + 1) : arrayValid env' w = false := by
  cases hs : w.arraySnap with
  | none => exact arrayValid_none hs
  | some p =>
    obtain ⟨a, ds⟩ := p
    cases hv : arrayValid env' w with
    | false => rfl
    | true =>
      have := ((arrayValid_some_iff hs).1 hv).1
      have ha := hA a ds hs
      omega

theorem sysInv_add (s : RSys) (r0 : Nat) (h : SysInv s) : SysInv (rstep s (ROp.add r0)) := by
  rw [rstep_add]
  refine ⟨h.nodup, h.wf, h.auto, ?_, ?_, ?_, ?_⟩
  · intro a ds hs
    have := h.snapA a ds hs
    simp only [stepEnv]
    omega
  · intro a ds hs p hp
    exact h.snapD a ds hs p hp
  · intro hv
    have : arrayValid (stepEnv (ROp.add r0) s.env) s.w = false :=
      arrayValid_bump h.snapA rfl
    rw [this] at hv
    exact absurd hv Bool.false_ne_true
  · intro a ds hs ha
    have := h.snapA a ds hs
    simp only [stepEnv] at ha
    omega

theorem sysInv_remove (s : RSys) (r0 : Nat) (h : SysInv s) :
    SysInv (rstep s (ROp.remove r0)) := by
  rw [rstep_remove]
  refine ⟨h.nodup, h.wf, h.auto, ?_, ?_, ?_, ?_⟩
  · intro a ds hs
    have := h.snapA a ds hs
    simp only [stepEnv]
    omega
  · intro a ds hs p hp
    exact h.snapD a ds hs p hp
  · intro hv
    have : arrayValid (stepEnv (ROp.remove r0) s.env) s.w = false :=
      arrayValid_bump h.snapA rfl
    rw [this] at hv
    exact absurd hv Bool.false_ne_true
  · intro a ds hs ha
    have := h.snapA a ds hs
    simp only [stepEnv] at ha
    omega

theorem mutate_recRev (e : RecEnv) (r0 x : Nat) :
    (stepEnv (ROp.mutate r0) e).recRev x = if x = r0 then e.recRev x + 1 else e.recRev x := rfl

theorem arrayValid_of_mutate {s : RSys} (r0 : Nat) (h : SysInv s)
    (hv : arrayValid (stepEnv (ROp.mutate r0) s.env) s.w = true) :
    arrayValid s.env s.w = true := by
  cases hs : s.w.arraySnap with
  | none =>
    rw [arrayValid_none hs] at hv
    exact absurd hv Bool.false_ne_true
  | some p =>
    obtain ⟨a, ds⟩ := p
    obtain ⟨ha, hd⟩ := (arrayValid_some_iff hs).1 hv
    rw [arrayValid_some_iff hs]
    refine ⟨ha, fun p hp => ?_⟩
    have hcur := hd p hp
    have hbound := h.snapD a ds hs p hp
    rw [mutate_recRev] at hcur
    by_cases hx : p.1 = r0
    · rw [if_pos hx] at hcur
      omega
    · rw [if_neg hx] at hcur
      exact hcur

theorem sysInv_mutate (s : RSys) (r0 : Nat) (h : SysInv s) :
    SysInv (rstep s (ROp.mutate r0)) := by
  rw [rstep_mutate]
  refine ⟨h.nodup, h.wf, h.auto, ?_, ?_, ?_, ?_⟩
  · intro a ds hs
    exact h.snapA a ds hs
  · intro a ds hs p hp
    have := h.snapD a ds hs p hp
    rw [mutate_recRev]
    by_cases hx : p.1 = r0
    · rw [if_pos hx]; omega
    · rw [if_neg hx]; exact this
  · intro hv r
    exact h.validKeys (arrayValid_of_mutate r0 h hv) r
  · intro a ds hs ha p hp
    exact h.depsRecs a ds hs ha p hp

theorem sysInv_reval (s : RSys) (h : SysInv s) : SysInv (rstep s ROp.reval) := by
  cases hv : arrayValid s.env s.w with
  | true =>
    rw [rstep_reval_of_valid hv]
    exact h
  | false =>
    rw [rstep_reval_of_invalid hv]
    have hchar := runArray_char s.env s.w.recordCaches h.wf
    refine ⟨runArray_nodup _ _ h.nodup, runArray_wfAll _ _ h.wf, ?_, ?_, ?_, ?_, ?_⟩
    · intro r
      show autoRun false (eventsOf r (s.log ++ [(runArray s.env s.w.recordCaches).2.1])) = _
      rw [eventsOf_append, autoRun_append, h.auto r]
      obtain ⟨c1, c2, c3, c4⟩ := hchar r
      cases h0 : alookup r s.w.recordCaches with
      | none =>
        by_cases hr : r ∈ s.env.recs
        · obtain ⟨he, _, hl⟩ := c1 h0 hr
          simp [eventsOf, he, hl, autoRun]
        · obtain ⟨he, hl⟩ := c2 h0 hr
          simp [eventsOf, he, hl, autoRun]
      | some c =>
        by_cases hr : r ∈ s.env.recs
        · obtain ⟨he, hl⟩ := c3 c h0 hr
          rcases he with he | he <;> simp [eventsOf, he, hl, autoRun]
        · obtain ⟨he, hl⟩ := c4 c h0 hr
          simp [eventsOf, he, hl, autoRun]
    · intro a ds hs
      have hs2 : (s.env.arrRev, (runArray s.env s.w.recordCaches).2.2) = (a, ds) :=
        Option.some_inj.1 hs
      have ha : s.env.arrRev = a := congrArg Prod.fst hs2
      show a ≤ s.env.arrRev
      omega
    · intro a ds hs p hp
      have hs2 : (s.env.arrRev, (runArray s.env s.w.recordCaches).2.2) = (a, ds) :=
        Option.some_inj.1 hs
      have hds : (runArray s.env s.w.recordCaches).2.2 = ds := congrArg Prod.snd hs2
      rw [← hds] at hp
      show p.2 ≤ s.env.recRev p.1
      have := (runArray_deps s.env s.w.recordCaches p hp).2
      omega
    · intro _ r
      obtain ⟨c1, c2, c3, c4⟩ := hchar r
      constructor
      · intro hr
        cases h0 : alookup r s.w.recordCaches with
        | none =>
          obtain ⟨_, _, hl⟩ := c1 h0 hr
          show (alookup r (runArray s.env s.w.recordCaches).1).isSome = true
          rw [hl]
          rfl
        | some c =>
          obtain ⟨_, hl⟩ := c3 c h0 hr
          show (alookup r (runArray s.env s.w.recordCaches).1).isSome = true
          rw [hl]
          rfl
      · intro hl
        by_contra hr
        rw [show (⟨(runArray s.env s.w.recordCaches).1,
            some (s.env.arrRev, (runArray s.env s.w.recordCaches).2.2)⟩ : RWatcher).recordCaches =
            (runArray s.env s.w.recordCaches).1 from rfl] at hl
        rw [alookup_runArray_caches, if_neg hr] at hl
        exact Bool.false_ne_true hl
    · intro a ds hs ha p hp
      have hs2 : (s.env.arrRev, (runArray s.env s.w.recordCaches).2.2) = (a, ds) :=
        Option.some_inj.1 hs
      have hds : (runArray s.env s.w.recordCaches).2.2 = ds := congrArg Prod.snd hs2
      rw [← hds] at hp
      show p.1 ∈ s.env.recs
      exact (runArray_deps s.env s.w.recordCaches p hp).1

theorem sysInv_step (s : RSys) (op : ROp) (h : SysInv s) : SysInv (rstep s op) := by
  cases op with
  | add r0 => exact sysInv_add s r0 h
  | remove r0 => exact sysInv_remove s r0 h
  | mutate r0 => exact sysInv_mutate s r0 h
  | reval => exact sysInv_reval s h

theorem union_step_reval (s : RSys) (h : SysInv s) (r : Nat) :
    r ∈ unionAdded (rstep s ROp.reval).log ↔ (r ∈ unionAdded s.log ∨ r ∈ s.env.recs) := by
  cases hv : arrayValid s.env s.w with
  | true =>
    rw [rstep_reval_of_valid hv]
    constructor
    · exact Or.inl
    · rintro (hh | hh)
      · exact hh
      · have hk := (h.validKeys hv r).1 hh
        have ha := h.auto r
        refine mem_unionAdded_of_events ha ?_
        intro hnil
        rw [hnil, hk] at ha
        simp [autoRun] at ha
  | false =>
    rw [rstep_reval_of_invalid hv]
    show r ∈ unionAdded (s.log ++ [(runArray s.env s.w.recordCaches).2.1]) ↔ _
    rw [unionAdded_append]
    constructor
    · intro hmem
      rcases List.mem_append.1 hmem with hm | hm
      · exact Or.inl hm
      · right
        have hA : r ∈ (runArray s.env s.w.recordCaches).2.1.added := by
          simpa [unionAdded] using hm
        exact runArray_added_sub _ _ r hA
    · rintro (hm | hm)
      · exact List.mem_append_left _ hm
      · cases h0 : alookup r s.w.recordCaches with
        | none =>
          obtain ⟨_, hA, _⟩ := (runArray_char s.env s.w.recordCaches h.wf r).1 h0 hm
          exact List.mem_append_right _ (by simpa [unionAdded] using hA)
        | some c =>
          have ha := h.auto r
          refine List.mem_append_left _ (mem_unionAdded_of_events ha ?_)
          intro hnil
          rw [hnil, h0] at ha
          simp [autoRun] at ha

theorem runFrom_inv_union (ops : List ROp) :
    ∀ (s : RSys), SysInv s →
      SysInv (runFrom s ops) ∧
      (∀ r, r ∈ unionAdded (runFrom s ops).log ↔
        (r ∈ unionAdded s.log ∨ r ∈ everPresent s.env ops)) := by
  induction ops with
  | nil =>
    intro s h
    exact ⟨h, fun r => by simp [runFrom, everPresent]⟩
  | cons op rest ih =>
    intro s h
    have hstep := sysInv_step s op h
    obtain ⟨hInv, hU⟩ := ih (rstep s op) hstep
    have hrun : runFrom s (op :: rest) = runFrom (rstep s op) rest := rfl
    rw [hrun]
    refine ⟨hInv, fun r => ?_⟩
    rw [hU r]
    cases op with
    | add r0 =>
      rw [rstep_add]
      simp [everPresent]
    | remove r0 =>
      rw [rstep_remove]
      simp [everPresent]
    | mutate r0 =>
      rw [rstep_mutate]
      simp [everPresent]
    | reval =>
      have henv : (rstep s ROp.reval).env = s.env := by
        unfold rstep
        rfl
      rw [union_step_reval s h r, henv]
      simp only [everPresent, stepEnv, List.mem_append]
      tauto

theorem sysInv_runTrace (ops : List ROp) : SysInv (runTrace ops) :=
  (runFrom_inv_union ops rinit sysInv_init).1

theorem runTrace_append (ops l : List ROp) :
    runTrace (ops ++ l) = runFrom (runTrace ops) l := by
  unfold runTrace runFrom
  rw [List.foldl_append]

/-! ### Dispatch lemmas -/

theorem dispatchCalls_spec (d : RunDiff) :
    ((dispatchCalls d).map kindOf).Sublist [0, 1, 2] ∧
    (∀ c ∈ dispatchCalls d, payloadOf c ≠ []) ∧
    (CbCall.ca d.added ∈ dispatchCalls d ↔ d.added ≠ []) ∧
    (CbCall.cu d.updated ∈ dispatchCalls d ↔ d.updated ≠ []) ∧
    (CbCall.cr d.removed ∈ dispatchCalls d ↔ d.removed ≠ []) ∧
    ((d.added = [] ∧ d.updated = [] ∧ d.removed = []) → dispatchCalls d = []) := by
  have e1 : (0 < d.added.length) ↔ d.added ≠ [] := List.length_pos
  have e2 : (0 < d.updated.length) ↔ d.updated ≠ [] := List.length_pos
  have e3 : (0 < d.removed.length) ↔ d.removed ≠ [] := List.length_pos
  unfold dispatchCalls
  by_cases h1 : 0 < d.added.length <;> by_cases h2 : 0 < d.updated.length <;>
    by_cases h3 : 0 < d.removed.length <;>
      simp only [h1, h2, h3, if_pos, if_neg, not_false_iff, not_true, if_true, if_false,
        List.append_nil, List.nil_append, List.append_assoc] <;>
    refine ⟨?_, ?_, ?_, ?_, ?_, ?_⟩ <;>
      simp_all [kindOf, payloadOf, List.Sublist, e1, e2, e3]

theorem revalidateCalls_eq (env : RecEnv) (w : RWatcher) :
    revalidateCalls env w =
      ((revalidateR env w).1,
        match (revalidateR env w).2 with
        | none => []
        | some d => dispatchCalls d) := by
  unfold revalidateCalls
  cases hrev : revalidateR env w with
  | mk w1 o => cases o <;> rfl

theorem revalidateCalls_snd (env : RecEnv) (w : RWatcher) :
    (revalidateCalls env w).2 =
      match (revalidateR env w).2 with
      | none => []
      | some d => dispatchCalls d := by
  rw [revalidateCalls_eq]

theorem revalidateCalls_of_none {env : RecEnv} {w : RWatcher}
    (h : (revalidateR env w).2 = none) : (revalidateCalls env w).2 = [] := by
  rw [revalidateCalls_snd, h]

theorem revalidateCalls_of_some {env : RecEnv} {w : RWatcher} {d : RunDiff}
    (h : (revalidateR env w).2 = some d) :
    (revalidateCalls env w).2 = dispatchCalls d := by
  rw [revalidateCalls_snd, h]

/-! ### Type-watcher lemmas -/

theorem trevalidate_fresh (env : RecEnv) :
    trevalidate env ⟨false, none⟩ = (⟨true, some env.arrRev⟩, 0) := rfl

theorem trevalidate_snap_after (env : RecEnv) (t : TWatcher) :
    (trevalidate env t).1.snap = some env.arrRev := by
  cases hs : t.snap with
  | none => simp [trevalidate, hs]
  | some v =>
    by_cases hv : v = env.arrRev
    · simp [trevalidate, hs, hv]
    · simp [trevalidate, hs, hv]

theorem trevalidate_idem (env : RecEnv) (t : TWatcher) :
    trevalidate env (trevalidate env t).1 = ((trevalidate env t).1, 0) := by
  have hs := trevalidate_snap_after env t
  generalize hgen : (trevalidate env t).1 = t1 at hs ⊢
  simp [trevalidate, hs]

/-! ### Claim theorems for the RecordsWatcher and TypeWatcher -/

/-- Claim C1, as stated, is false on the code: a record that is removed,
re-added and removed again is reported removed twice (and added twice), so
"each record is reported removed at most once" fails; the concrete trace
add 0, revalidate, remove 0, revalidate, add 0, revalidate, remove 0,
revalidate produces two removed reports for record 0. -/
theorem c1_counterexample :
    ¬ (∀ (ops : List ROp) (r : Nat), (unionRemoved (runTrace ops).log).count r ≤ 1) := by
  intro hcl
  have h2 := hcl
    [ROp.add 0, ROp.reval, ROp.remove 0, ROp.reval, ROp.add 0, ROp.reval, ROp.remove 0,
      ROp.reval] 0
  have he : (unionRemoved (runTrace
      [ROp.add 0, ROp.reval, ROp.remove 0, ROp.reval, ROp.add 0, ROp.reval, ROp.remove 0,
        ROp.reval]).log).count 0 = 2 := by rfl
  omega

/-- Claim C1 (amended): over every trace of additions, removals and
in-place mutations interleaved with revalidations, (i) the union of all
records reported added equals the set of records present in the collection
at some revalidation, and (ii) each record's report history is accepted by
the report automaton — reports follow the pattern
(added, updated*, removed?) repeated per presence episode, with the
automaton ending in the "present" state exactly when the record is in the
per-record cache map; hence a record is reported added exactly once per
episode before any update, removed at most once per episode and only
after having been added, and never updated before being added. -/
theorem c1_theorem (ops : List ROp) (r : Nat) :
    (r ∈ unionAdded (runTrace ops).log ↔ r ∈ everPresent rinit.env ops) ∧
    autoRun false (eventsOf r (runTrace ops).log) =
      some (alookup r (runTrace ops).w.recordCaches).isSome := by
  obtain ⟨hInv, hU⟩ := runFrom_inv_union ops rinit sysInv_init
  unfold runTrace
  constructor
  · rw [hU r]
    simp [rinit, unionAdded]
  · exact hInv.auto r

/-- Claim C2: in one `revalidate()` call, each of the three callbacks is
invoked at most once, in the order added, updated, removed (the kinds of
the performed invocations form a sublist of [0,1,2]), always with a
non-empty list, a callback is invoked precisely when its category is
non-empty, a fully empty diff invokes none of them, and a memoized
revalidation invokes none of them. -/
theorem c2_theorem (env : RecEnv) (w : RWatcher) :
    ((revalidateCalls env w).2.map kindOf).Sublist [0, 1, 2] ∧
    (∀ c ∈ (revalidateCalls env w).2, payloadOf c ≠ []) ∧
    (∀ d, (revalidateR env w).2 = some d →
      ((CbCall.ca d.added ∈ (revalidateCalls env w).2 ↔ d.added ≠ []) ∧
        (CbCall.cu d.updated ∈ (revalidateCalls env w).2 ↔ d.updated ≠ []) ∧
        (CbCall.cr d.removed ∈ (revalidateCalls env w).2 ↔ d.removed ≠ []) ∧
        ((d.added = [] ∧ d.updated = [] ∧ d.removed = []) →
          (revalidateCalls env w).2 = []))) ∧
    ((revalidateR env w).2 = none → (revalidateCalls env w).2 = []) := by
  cases ho : (revalidateR env w).2 with
  | none =>
    have hc := revalidateCalls_of_none ho
    rw [hc]
    refine ⟨List.nil_sublist _, ?_, ?_, fun _ => rfl⟩
    · intro c hc2
      exact absurd hc2 (List.not_mem_nil c)
    · intro d hd
      exact Option.noConfusion hd
  | some d0 =>
    have hc := revalidateCalls_of_some ho
    rw [hc]
    obtain ⟨g1, g2, g3, g4, g5, g6⟩ := dispatchCalls_spec d0
    refine ⟨g1, g2, ?_, ?_⟩
    · intro d hd
      obtain rfl := Option.some_inj.1 hd
      exact ⟨g3, g4, g5, g6⟩
    · intro hn
      exact Option.noConfusion hn

/-- Witness for C2 at a concrete input: a fresh watcher over the
collection [0] performs an added invocation whose payload is non-empty. -/
theorem c2_witness : payloadOf (CbCall.ca [0]) ≠ [] :=
  (c2_theorem ⟨[0], 1, fun _ => 0⟩ ⟨[], none⟩).2.1 (CbCall.ca [0]) (by decide)

/-- Claim C5: revalidating twice with no intervening mutation of any
tracked dependency produces zero callback invocations the second time,
for both watcher kinds: a second `revalidate` trace step is a no-op on
the whole system (no diff is logged, the watcher is unchanged); the same
holds for a second revalidation under any environment that leaves the
`'[]'` tag and every dependency recorded by the first revalidation at
their previous revisions; and a second `TypeWatcher.revalidate` (under
any environment with the collection tag unchanged) returns the same
watcher with zero `onChange` calls. -/
theorem c5_theorem (s : RSys) (env env2 : RecEnv) (t : TWatcher) :
    rstep (rstep s ROp.reval) ROp.reval = rstep s ROp.reval ∧
    (∀ w : RWatcher, ∀ a ds, ((revalidateR env w).1).arraySnap = some (a, ds) →
      env2.arrRev = env.arrRev → (∀ p ∈ ds, env2.recRev p.1 = env.recRev p.1) →
      revalidateR env2 (revalidateR env w).1 = ((revalidateR env w).1, none)) ∧
    trevalidate env (trevalidate env t).1 = ((trevalidate env t).1, 0) ∧
    (env2.arrRev = env.arrRev →
      trevalidate env2 (trevalidate env t).1 = ((trevalidate env t).1, 0)) := by
  refine ⟨?_, ?_, trevalidate_idem env t, ?_⟩
  · have hv : arrayValid (rstep s ROp.reval).env (rstep s ROp.reval).w = true := by
      have henv : (rstep s ROp.reval).env = s.env := rfl
      have hw : (rstep s ROp.reval).w = (revalidateR s.env s.w).1 := rfl
      rw [henv, hw]
      exact arrayValid_after s.env s.w
    exact rstep_reval_of_valid hv
  · intro w a ds hsnap harr hds
    have hv1 := arrayValid_after env w
    obtain ⟨ha, hd⟩ := (arrayValid_some_iff hsnap).1 hv1
    refine revalidateR_of_valid ((arrayValid_some_iff hsnap).2 ⟨?_, ?_⟩)
    · rw [harr]
      exact ha
    · intro p hp
      rw [hds p hp]
      exact hd p hp
  · intro harr
    have hs := trevalidate_snap_after env t
    generalize hgen : (trevalidate env t).1 = t1 at hs ⊢
    rw [← harr] at hs
    simp [trevalidate, hs]

/-- Witness for C5 at a concrete input: after the initial revalidation of
a fresh watcher over the collection [0], a second revalidation under the
same tag revisions is memoized and performs no callback. -/
theorem c5_witness :
    ((revalidateR ⟨[0], 1, fun _ => 0⟩ ⟨[], none⟩).1).arraySnap = some (1, [(0, 0)]) ∧
    revalidateR ⟨[0], 1, fun _ => 0⟩ (revalidateR ⟨[0], 1, fun _ => 0⟩ ⟨[], none⟩).1 =
      ((revalidateR ⟨[0], 1, fun _ => 0⟩ ⟨[], none⟩).1, none) :=
  ⟨by decide,
    (c5_theorem rinit ⟨[0], 1, fun _ => 0⟩ ⟨[0], 1, fun _ => 0⟩ ⟨false, none⟩).2.1
      ⟨[], none⟩ 1 [(0, 0)] (by decide) rfl (by decide)⟩

/-- Claim C6: a `TypeWatcher`'s first-ever forced evaluation records the
access and invokes no callback; every later forced re-evaluation (which
happens exactly when collection membership changed) invokes `onChange`
exactly once; in the concrete scenario, watching [0] fires nothing on the
first revalidation and exactly once after a record is added. -/
theorem c6_theorem (env : RecEnv) (t : TWatcher) (v : Nat) :
    trevalidate env ⟨false, none⟩ = (⟨true, some env.arrRev⟩, 0) ∧
    (t.hasBeenAccessed = true → t.snap = some v → v ≠ env.arrRev →
      trevalidate env t = (⟨true, some env.arrRev⟩, 1)) ∧
    ((trevalidate ⟨[0], 0, fun _ => 0⟩ ⟨false, none⟩).2 = 0 ∧
      (trevalidate (stepEnv (ROp.add 1) ⟨[0], 0, fun _ => 0⟩)
        (trevalidate ⟨[0], 0, fun _ => 0⟩ ⟨false, none⟩).1).2 = 1) := by
  refine ⟨trevalidate_fresh env, ?_, by decide, by decide⟩
  intro hb hs hv
  simp [trevalidate, hs, hv, hb]

/-- Witness for C6 at a concrete input: a watcher already accessed with a
stale snapshot fires `onChange` exactly once. -/
theorem c6_witness :
    trevalidate ⟨[], 1, fun _ => 0⟩ ⟨true, some 0⟩ = (⟨true, some 1⟩, 1) :=
  (c6_theorem ⟨[], 1, fun _ => 0⟩ ⟨true, some 0⟩ 0).2.1 rfl rfl (by decide)

/-- Claim C7: the removal pass registers no dependencies of the top-level
computation: after a revalidation, every recorded dependency belongs to a
record still present in the collection, and mutating a record absent from
the collection (in particular one just reported removed) does not make the
next revalidation recompute — the watcher and its log are unchanged, so
removed records are never polled again. -/
theorem c7_theorem (ops : List ROp) (r : Nat)
    (h : r ∉ (runTrace (ops ++ [ROp.reval])).env.recs) :
    (∀ a ds, (runTrace (ops ++ [ROp.reval])).w.arraySnap = some (a, ds) →
      ∀ p ∈ ds, p.1 ∈ (runTrace (ops ++ [ROp.reval])).env.recs) ∧
    (runTrace (ops ++ [ROp.reval, ROp.mutate r, ROp.reval])).w =
      (runTrace (ops ++ [ROp.reval])).w ∧
    (runTrace (ops ++ [ROp.reval, ROp.mutate r, ROp.reval])).log =
      (runTrace (ops ++ [ROp.reval])).log := by
  have hs1 : runTrace (ops ++ [ROp.reval]) = rstep (runTrace ops) ROp.reval := by
    rw [runTrace_append]
    rfl
  have hInv1 : SysInv (runTrace (ops ++ [ROp.reval])) := by
    rw [hs1]
    exact sysInv_step _ _ (sysInv_runTrace ops)
  have hvalid1 : arrayValid (runTrace (ops ++ [ROp.reval])).env
      (runTrace (ops ++ [ROp.reval])).w = true := by
    rw [hs1]
    have henv : (rstep (runTrace ops) ROp.reval).env = (runTrace ops).env := rfl
    have hw : (rstep (runTrace ops) ROp.reval).w =
        (revalidateR (runTrace ops).env (runTrace ops).w).1 := rfl
    rw [henv, hw]
    exact arrayValid_after _ _
  have hdeps : ∀ a ds, (runTrace (ops ++ [ROp.reval])).w.arraySnap = some (a, ds) →
      ∀ p ∈ ds, p.1 ∈ (runTrace (ops ++ [ROp.reval])).env.recs := by
    intro a ds hsnap
    have ha := ((arrayValid_some_iff hsnap).1 hvalid1).1
    exact hInv1.depsRecs a ds hsnap ha
  refine ⟨hdeps, ?_⟩
  have hs3 : runTrace (ops ++ [ROp.reval, ROp.mutate r, ROp.reval]) =
      rstep (rstep (rstep (runTrace ops) ROp.reval) (ROp.mutate r)) ROp.reval := by
    rw [runTrace_append]
    rfl
  rw [← hs1] at hs3
  set s1 := runTrace (ops ++ [ROp.reval]) with hset
  have hvalid2 : arrayValid (rstep s1 (ROp.mutate r)).env (rstep s1 (ROp.mutate r)).w
      = true := by
    rw [rstep_mutate]
    cases hsnap : s1.w.arraySnap with
    | none =>
      rw [arrayValid_none hsnap] at hvalid1
      exact absurd hvalid1 Bool.false_ne_true
    | some p =>
      obtain ⟨a, ds⟩ := p
      obtain ⟨ha, hd⟩ := (arrayValid_some_iff hsnap).1 hvalid1
      show arrayValid (stepEnv (ROp.mutate r) s1.env) s1.w = true
      rw [arrayValid_some_iff hsnap]
      refine ⟨ha, fun p hp => ?_⟩
      have hin := hdeps a ds hsnap p hp
      have hne : p.1 ≠ r := fun hh => h (hh ▸ hin)
      rw [mutate_recRev, if_neg hne]
      exact hd p hp
  rw [hs3, rstep_reval_of_valid hvalid2, rstep_mutate]
  exact ⟨rfl, rfl⟩

/-- Witness for C7 at a concrete input: record 0 is added, revalidated,
removed; after the next revalidation mutating the removed record 0 and
revalidating again leaves the diff log unchanged. -/
theorem c7_witness :
    0 ∉ (runTrace ([ROp.add 0, ROp.reval, ROp.remove 0] ++ [ROp.reval])).env.recs ∧
    (runTrace ([ROp.add 0, ROp.reval, ROp.remove 0] ++
        [ROp.reval, ROp.mutate 0, ROp.reval])).log =
      (runTrace ([ROp.add 0, ROp.reval, ROp.remove 0] ++ [ROp.reval])).log :=
  ⟨by decide, (c7_theorem [ROp.add 0, ROp.reval, ROp.remove 0] 0 (by decide)).2.2⟩

/-- Claim C10: within one executed revalidation over a collection that may
contain the same record several times, the record is classified at most
once: it occurs at most once in the concatenation of the added and updated
lists, because the second forcing of its per-record cache within the same
pass is memoized. -/
theorem c10_theorem (env : RecEnv) (caches0 : List (Nat × RecordCache))
    (hwf : ∀ p ∈ caches0, p.2.hasBeenAdded = true) (r : Nat) :
    ((runArray env caches0).2.1.added ++ (runArray env caches0).2.1.updated).count r ≤ 1 := by
  rw [List.count_append]
  have hadded : (runArray env caches0).2.1.added =
      ((env.recs.foldl (stepRecord env) ⟨caches0, [], [], []⟩)).added := by
    rw [runArray_eq]
  have hupdated : (runArray env caches0).2.1.updated =
      ((env.recs.foldl (stepRecord env) ⟨caches0, [], [], []⟩)).updated := by
    rw [runArray_eq]
  rw [hadded, hupdated]
  cases h0 : alookup r caches0 with
  | none =>
    by_cases hr : r ∈ env.recs
    · obtain ⟨g1, g2, g3⟩ := (fold_fresh env r env.recs ⟨caches0, [], [], []⟩ h0 rfl rfl).1 hr
      omega
    · obtain ⟨g1, g2, g3⟩ := (fold_fresh env r env.recs ⟨caches0, [], [], []⟩ h0 rfl rfl).2 hr
      omega
  | some c =>
    have hb : c.hasBeenAdded = true := hwf _ (alookup_mem h0)
    by_cases hr : r ∈ env.recs
    · obtain ⟨g1, g2, g3⟩ :=
        (fold_old env r env.recs ⟨caches0, [], [], []⟩ c h0 hb rfl rfl).1 hr
      omega
    · obtain ⟨g1, g2, g3⟩ :=
        (fold_old env r env.recs ⟨caches0, [], [], []⟩ c h0 hb rfl rfl).2 hr
      omega

/-- Witness for C10 at a concrete input: the collection [5, 5] containing
a duplicate record yields a single added report for record 5. -/
theorem c10_witness :
    (∀ p ∈ ([] : List (Nat × RecordCache)), p.2.hasBeenAdded = true) ∧
    ((runArray ⟨[5, 5], 0, fun _ => 0⟩ []).2.1.added ++
      (runArray ⟨[5, 5], 0, fun _ => 0⟩ []).2.1.updated).count 5 ≤ 1 :=
  ⟨by decide, c10_theorem ⟨[5, 5], 0, fun _ => 0⟩ [] (by decide) 5⟩

/-! ### More association-list lemmas for the coordinator -/

theorem mem_akeys_aerase {α : Type} {k c : Nat} {l : List (Nat × α)} :
    k ∈ akeys (aerase c l) ↔ k ∈ akeys l ∧ k ≠ c := by
  simp only [akeys, List.mem_map]
  constructor
  · rintro ⟨p, hp, rfl⟩
    obtain ⟨hpl, hpc⟩ := mem_aerase.1 hp
    exact ⟨⟨p, hpl, rfl⟩, hpc⟩
  · rintro ⟨⟨p, hp, rfl⟩, hk⟩
    exact ⟨p, mem_aerase.2 ⟨hp, hk⟩, rfl⟩

theorem alookup_aerase_self {α : Type} (k : Nat) (l : List (Nat × α)) :
    alookup k (aerase k l) = none := by
  rw [alookup_eq_none]
  intro h
  exact (mem_akeys_aerase.1 h).2 rfl

theorem aerase_idem {α : Type} (k : Nat) (l : List (Nat × α)) :
    aerase k (aerase k l) = aerase k l := by
  apply aerase_of_not_mem
  intro h
  exact (mem_akeys_aerase.1 h).2 rfl

theorem aerase_length {α : Type} {k : Nat} {l : List (Nat × α)}
    (hnd : (akeys l).Nodup) (hmem : k ∈ akeys l) :
    (aerase k l).length + 1 = l.length := by
  induction l with
  | nil => simp [akeys] at hmem
  | cons p l ih =>
    simp only [akeys, List.map_cons, List.nodup_cons] at hnd
    by_cases hp : p.1 = k
    · rw [aerase, if_pos hp]
      rw [aerase_of_not_mem (by rw [← hp]; exact hnd.1)]
      simp
    · simp only [akeys, List.map_cons, List.mem_cons] at hmem
      rcases hmem with hmem | hmem
      · exact absurd hmem.symm hp
      · rw [aerase, if_neg hp]
        simp only [List.length_cons]
        rw [← ih hnd.2 hmem]

theorem length_eq_zero_iff_nil {α : Type} {l : List α} : l.length = 0 ↔ l = [] :=
  List.length_eq_zero

theorem eraseFold_nil {α : Type} :
    ∀ (ks : List Nat) (l : List (Nat × α)), (∀ p ∈ l, p.1 ∈ ks) →
      ks.foldl (fun acc c => aerase c acc) l = [] := by
  intro ks
  induction ks with
  | nil =>
    intro l h
    cases l with
    | nil => rfl
    | cons p l => exact absurd (h p (List.mem_cons_self p l)) (List.not_mem_nil _)
  | cons k ks ih =>
    intro l h
    rw [List.foldl_cons]
    refine ih (aerase k l) ?_
    intro p hp
    obtain ⟨hpl, hpk⟩ := mem_aerase.1 hp
    rcases List.mem_cons.1 (h p hpl) with hm | hm
    · exact absurd hm hpk
    · exact hm

theorem eraseFold_of_nil {α : Type} (ks : List Nat) :
    ks.foldl (fun acc c => aerase c acc) ([] : List (Nat × α)) = [] := by
  induction ks with
  | nil => rfl
  | cons k ks ih => simpa [aerase] using ih

/-! ### Characterizations of the coordinator operations -/

theorem watchRecordsFn_some {s : Coord} {c wid : Nat}
    (h : alookup c s.recordsWatchers = some wid) :
    watchRecordsFn c s = (s, wid, false) := by
  unfold watchRecordsFn
  rw [h]

theorem watchRecordsFn_none {s : Coord} {c : Nat}
    (h : alookup c s.recordsWatchers = none) :
    watchRecordsFn c s =
      (⟨s.recordsWatchers ++ [(c, s.nextWid)], s.typeWatchers, s.releaseMethods,
        (if s.recordsWatchers.length = 0 then s.subCount + 1 else s.subCount),
        s.nextWid + 1, s.nextCid, s.issuedR ++ [c], s.issuedT, s.issuedC⟩,
        s.nextWid, true) := by
  unfold watchRecordsFn
  rw [h]
  by_cases hl : s.recordsWatchers.length = 0 <;> simp [hl]

theorem watchTypeFn_some {s : Coord} {c wid : Nat}
    (h : alookup c s.typeWatchers = some wid) :
    watchTypeFn c s = (s, wid, false) := by
  unfold watchTypeFn
  rw [h]

theorem watchTypeFn_none {s : Coord} {c : Nat}
    (h : alookup c s.typeWatchers = none) :
    watchTypeFn c s =
      (⟨s.recordsWatchers, s.typeWatchers ++ [(c, s.nextWid)], s.releaseMethods,
        (if s.typeWatchers.length = 0 then s.subCount + 1 else s.subCount),
        s.nextWid + 1, s.nextCid, s.issuedR, s.issuedT ++ [c], s.issuedC⟩,
        s.nextWid, true) := by
  unfold watchTypeFn
  rw [h]
  by_cases hl : s.typeWatchers.length = 0 <;> simp [hl]

theorem releaseRecords_eq (c : Nat) (s : Coord) :
    releaseRecords c s =
      ⟨aerase c s.recordsWatchers, s.typeWatchers, s.releaseMethods,
        (if s.recordsWatchers.length = 1 then s.subCount - 1 else s.subCount),
        s.nextWid, s.nextCid, s.issuedR, s.issuedT, s.issuedC⟩ := by
  unfold releaseRecords
  by_cases hl : s.recordsWatchers.length = 1 <;> simp [hl]

theorem releaseType_eq (c : Nat) (s : Coord) :
    releaseType c s =
      ⟨s.recordsWatchers, aerase c s.typeWatchers, s.releaseMethods,
        (if s.typeWatchers.length = 1 then s.subCount - 1 else s.subCount),
        s.nextWid, s.nextCid, s.issuedR, s.issuedT, s.issuedC⟩ := by
  unfold releaseType
  by_cases hl : s.typeWatchers.length = 1 <;> simp [hl]

/-! ### Fold lemmas for `willDestroy` -/

theorem typeFold_comps (ks : List Nat) :
    ∀ s : Coord,
      (ks.foldl (fun t c => releaseType c t) s).recordsWatchers = s.recordsWatchers ∧
      (ks.foldl (fun t c => releaseType c t) s).releaseMethods = s.releaseMethods ∧
      (ks.foldl (fun t c => releaseType c t) s).issuedR = s.issuedR ∧
      (ks.foldl (fun t c => releaseType c t) s).typeWatchers =
        ks.foldl (fun l c => aerase c l) s.typeWatchers := by
  induction ks with
  | nil => intro s; exact ⟨rfl, rfl, rfl, rfl⟩
  | cons k ks ih =>
    intro s
    rw [List.foldl_cons, List.foldl_cons, releaseType_eq k s]
    exact ih _

theorem recordsFold_comps (ks : List Nat) :
    ∀ s : Coord,
      (ks.foldl (fun t c => releaseRecords c t) s).typeWatchers = s.typeWatchers ∧
      (ks.foldl (fun t c => releaseRecords c t) s).releaseMethods = s.releaseMethods ∧
      (ks.foldl (fun t c => releaseRecords c t) s).issuedR = s.issuedR ∧
      (ks.foldl (fun t c => releaseRecords c t) s).recordsWatchers =
        ks.foldl (fun l c => aerase c l) s.recordsWatchers := by
  induction ks with
  | nil => intro s; exact ⟨rfl, rfl, rfl, rfl⟩
  | cons k ks ih =>
    intro s
    rw [List.foldl_cons, List.foldl_cons, releaseRecords_eq k s]
    exact ih _

theorem typeFold_empty (cs : List Nat) :
    ∀ s : Coord, s.typeWatchers = [] →
      (cs.foldl (fun t c => releaseType c t) s).typeWatchers = [] ∧
      (cs.foldl (fun t c => releaseType c t) s).subCount = s.subCount := by
  induction cs with
  | nil => intro s h; exact ⟨h, rfl⟩
  | cons c cs ih =>
    intro s h
    rw [List.foldl_cons]
    have h1 : (releaseType c s).typeWatchers = [] := by
      rw [releaseType_eq]
      show aerase c s.typeWatchers = []
      rw [h]
      rfl
    obtain ⟨g1, g2⟩ := ih (releaseType c s) h1
    refine ⟨g1, ?_⟩
    rw [g2, releaseType_eq]
    show (if s.typeWatchers.length = 1 then s.subCount - 1 else s.subCount) = s.subCount
    rw [h]
    rfl

theorem compositeRelease_comps (i : Nat) (cs : List Nat) (s : Coord) :
    (compositeRelease i cs s).recordsWatchers = s.recordsWatchers ∧
    (compositeRelease i cs s).releaseMethods = aerase i s.releaseMethods ∧
    (compositeRelease i cs s).issuedR = s.issuedR ∧
    (compositeRelease i cs s).typeWatchers =
      cs.foldl (fun l c => aerase c l) s.typeWatchers ∧
    (s.typeWatchers = [] →
      (compositeRelease i cs s).typeWatchers = [] ∧
      (compositeRelease i cs s).subCount = s.subCount) := by
  obtain ⟨g1, g2, g3, g4⟩ := typeFold_comps cs s
  refine ⟨g1, ?_, g3, g4, fun h => ?_⟩
  · show aerase i (cs.foldl (fun t c => releaseType c t) s).releaseMethods =
      aerase i s.releaseMethods
    rw [g2]
  · obtain ⟨e1, e2⟩ := typeFold_empty cs s h
    exact ⟨e1, e2⟩

theorem compFold_comps (es : List (Nat × List Nat)) :
    ∀ s : Coord,
      (es.foldl (fun t p => compositeRelease p.1 p.2 t) s).recordsWatchers =
        s.recordsWatchers ∧
      (es.foldl (fun t p => compositeRelease p.1 p.2 t) s).releaseMethods =
        es.foldl (fun L p => aerase p.1 L) s.releaseMethods ∧
      (s.typeWatchers = [] →
        (es.foldl (fun t p => compositeRelease p.1 p.2 t) s).typeWatchers = [] ∧
        (es.foldl (fun t p => compositeRelease p.1 p.2 t) s).subCount = s.subCount) := by
  induction es with
  | nil => intro s; exact ⟨rfl, rfl, fun h => ⟨h, rfl⟩⟩
  | cons e es ih =>
    intro s
    rw [List.foldl_cons, List.foldl_cons]
    obtain ⟨c1, c2, c3, c4, c5⟩ := compositeRelease_comps e.1 e.2 s
    obtain ⟨g1, g2, g3⟩ := ih (compositeRelease e.1 e.2 s)
    refine ⟨g1.trans c1, ?_, fun h => ?_⟩
    · rw [g2, c2]
    · obtain ⟨e1, e2⟩ := c5 h
      obtain ⟨f1, f2⟩ := g3 e1
      exact ⟨f1, f2.trans e2⟩

theorem cdestroy_eq (s : Coord) :
    cdestroy s =
      s.releaseMethods.foldl (fun t p => compositeRelease p.1 p.2 t)
        ((akeys s.recordsWatchers).foldl (fun t c => releaseRecords c t)
          ((akeys s.typeWatchers).foldl (fun t c => releaseType c t) s)) := rfl

theorem akeys_append {α : Type} (l1 l2 : List (Nat × α)) :
    akeys (l1 ++ l2) = akeys l1 ++ akeys l2 := by
  simp [akeys]

theorem nodup_snoc {l : List Nat} {x : Nat} (h : l.Nodup) (hx : x ∉ l) :
    (l ++ [x]).Nodup := by
  rw [List.nodup_append]
  refine ⟨h, List.nodup_singleton x, ?_⟩
  intro a ha hb
  simp only [List.mem_singleton] at hb
  subst hb
  exact hx ha

theorem eraseFold_nodup {α : Type} :
    ∀ (ks : List Nat) (l : List (Nat × α)), (akeys l).Nodup →
      (akeys (ks.foldl (fun acc c => aerase c acc) l)).Nodup := by
  intro ks
  induction ks with
  | nil => intro l h; exact h
  | cons k ks ih =>
    intro l h
    rw [List.foldl_cons]
    exact ih _ (List.Nodup.sublist ((aerase_sublist k l).map Prod.fst) h)

theorem cdestroy_registries (s : Coord) :
    (cdestroy s).recordsWatchers = [] ∧ (cdestroy s).typeWatchers = [] ∧
    (cdestroy s).releaseMethods = [] := by
  rw [cdestroy_eq]
  obtain ⟨t1, t2, t3, t4⟩ := typeFold_comps (akeys s.typeWatchers) s
  have htE : ((akeys s.typeWatchers).foldl (fun t c => releaseType c t) s).typeWatchers
      = [] := by
    rw [t4]
    exact eraseFold_nil _ _ (fun p hp => List.mem_map_of_mem _ hp)
  obtain ⟨r1, r2, r3, r4⟩ :=
    recordsFold_comps (akeys s.recordsWatchers)
      ((akeys s.typeWatchers).foldl (fun t c => releaseType c t) s)
  have hrE : ((akeys s.recordsWatchers).foldl (fun t c => releaseRecords c t)
      ((akeys s.typeWatchers).foldl (fun t c => releaseType c t) s)).recordsWatchers
      = [] := by
    rw [r4, t1]
    exact eraseFold_nil _ _ (fun p hp => List.mem_map_of_mem _ hp)
  obtain ⟨g1, g2, g3⟩ :=
    compFold_comps s.releaseMethods
      ((akeys s.recordsWatchers).foldl (fun t c => releaseRecords c t)
        ((akeys s.typeWatchers).foldl (fun t c => releaseType c t) s))
  obtain ⟨f1, _⟩ := g3 (r1.trans htE)
  refine ⟨g1.trans hrE, f1, ?_⟩
  rw [g2, r2, t2]
  have hmap : s.releaseMethods.foldl (fun L p => aerase p.1 L) s.releaseMethods =
      (s.releaseMethods.map Prod.fst).foldl (fun L k => aerase k L) s.releaseMethods := by
    rw [List.foldl_map]
  rw [hmap]
  exact eraseFold_nil _ _ (fun p hp => List.mem_map_of_mem _ hp)

/-! ### Coordinator invariant preservation -/

theorem coordWf_watchR (c : Nat) (s : Coord) (h : CoordWf s) :
    CoordWf (cstep (COp.watchR c) s) := by
  show CoordWf (watchRecordsFn c s).1
  cases hl : alookup c s.recordsWatchers with
  | some wid =>
    rw [watchRecordsFn_some hl]
    exact h
  | none =>
    rw [watchRecordsFn_none hl]
    refine ⟨?_, h.nodupT, ?_⟩
    · show (akeys (s.recordsWatchers ++ [(c, s.nextWid)])).Nodup
      rw [akeys_append]
      exact nodup_snoc h.nodupR ((alookup_eq_none c _).1 hl)
    · intro k hk
      show k ∈ s.issuedR ++ [c]
      rw [show akeys ((⟨s.recordsWatchers ++ [(c, s.nextWid)], s.typeWatchers,
        s.releaseMethods, _, s.nextWid + 1, s.nextCid, s.issuedR ++ [c], s.issuedT,
        s.issuedC⟩ : Coord).recordsWatchers) = akeys s.recordsWatchers ++ [c] from
          akeys_append _ _] at hk
      rcases List.mem_append.1 hk with hm | hm
      · exact List.mem_append_left _ (h.issued k hm)
      · exact List.mem_append_right _ hm

theorem coordWf_watchT (c : Nat) (s : Coord) (h : CoordWf s) :
    CoordWf (cstep (COp.watchT c) s) := by
  show CoordWf (watchTypeFn c s).1
  cases hl : alookup c s.typeWatchers with
  | some wid =>
    rw [watchTypeFn_some hl]
    exact h
  | none =>
    rw [watchTypeFn_none hl]
    refine ⟨h.nodupR, ?_, h.issued⟩
    show (akeys (s.typeWatchers ++ [(c, s.nextWid)])).Nodup
    rw [akeys_append]
    exact nodup_snoc h.nodupT ((alookup_eq_none c _).1 hl)

theorem coordWf_releaseRecords (c : Nat) (s : Coord) (h : CoordWf s) :
    CoordWf (releaseRecords c s) := by
  rw [releaseRecords_eq]
  refine ⟨?_, h.nodupT, ?_⟩
  · exact List.Nodup.sublist ((aerase_sublist c _).map Prod.fst) h.nodupR
  · intro k hk
    exact h.issued k (mem_akeys_aerase.1 hk).1

theorem coordWf_releaseType (c : Nat) (s : Coord) (h : CoordWf s) :
    CoordWf (releaseType c s) := by
  rw [releaseType_eq]
  exact ⟨h.nodupR, List.Nodup.sublist ((aerase_sublist c _).map Prod.fst) h.nodupT, h.issued⟩

theorem coordWf_typeFold (cs : List Nat) :
    ∀ s : Coord, CoordWf s → CoordWf (cs.foldl (fun t c => releaseType c t) s) := by
  induction cs with
  | nil => intro s h; exact h
  | cons c cs ih =>
    intro s h
    rw [List.foldl_cons]
    exact ih _ (coordWf_releaseType c s h)

theorem coordWf_watchTypeFold (cs : List Nat) :
    ∀ s : Coord, CoordWf s → CoordWf (cs.foldl (fun t c => (watchTypeFn c t).1) s) := by
  induction cs with
  | nil => intro s h; exact h
  | cons c cs ih =>
    intro s h
    rw [List.foldl_cons]
    exact ih _ (coordWf_watchT c s h)

theorem coordWf_cstep (op : COp) (s : Coord) (h : CoordWf s) : CoordWf (cstep op s) := by
  cases op with
  | watchR c => exact coordWf_watchR c s h
  | watchT c => exact coordWf_watchT c s h
  | relR c =>
    show CoordWf (if c ∈ s.issuedR then releaseRecords c s else s)
    by_cases hc : c ∈ s.issuedR
    · rw [if_pos hc]
      exact coordWf_releaseRecords c s h
    · rw [if_neg hc]
      exact h
  | watchTypes cs =>
    show CoordWf (watchTypesFn cs s)
    have h1 := coordWf_watchTypeFold cs s h
    exact ⟨h1.nodupR, h1.nodupT, h1.issued⟩
  | relTypes i =>
    show CoordWf (match alookup i s.issuedC with
      | some cs => compositeRelease i cs s
      | none => s)
    cases hl : alookup i s.issuedC with
    | none => exact h
    | some cs =>
      obtain ⟨c1, c2, c3, c4, c5⟩ := compositeRelease_comps i cs s
      refine ⟨?_, ?_, ?_⟩
      · rw [c1]
        exact h.nodupR
      · rw [c4]
        exact eraseFold_nodup cs _ h.nodupT
      · intro k hk
        rw [c1] at hk
        rw [c3]
        exact h.issued k hk
  | flush => exact h
  | destroy =>
    obtain ⟨d1, d2, d3⟩ := cdestroy_registries s
    refine ⟨?_, ?_, ?_⟩
    · rw [show cstep COp.destroy s = cdestroy s from rfl, d1]
      exact List.nodup_nil
    · rw [show cstep COp.destroy s = cdestroy s from rfl, d2]
      exact List.nodup_nil
    · intro k hk
      rw [show cstep COp.destroy s = cdestroy s from rfl, d1] at hk
      exact absurd hk (List.not_mem_nil k)

theorem coordWf_cinit : CoordWf cinit :=
  ⟨List.nodup_nil, List.nodup_nil, fun k hk => absurd hk (List.not_mem_nil k)⟩

theorem coordWf_creach (ops : List COp) : CoordWf (creach ops) := by
  have hgen : ∀ (l : List COp) (s : Coord), CoordWf s →
      CoordWf (l.foldl (fun t op => cstep op t) s) := by
    intro l
    induction l with
    | nil => intro s h; exact h
    | cons op l ih =>
      intro s h
      rw [List.foldl_cons]
      exact ih _ (coordWf_cstep op s h)
  exact hgen ops cinit coordWf_cinit

theorem subInv_watchRecordsFn (c : Nat) (s : Coord) (h : SubInv s) :
    SubInv (watchRecordsFn c s).1 := by
  cases hl : alookup c s.recordsWatchers with
  | some wid =>
    rw [watchRecordsFn_some hl]
    exact h
  | none =>
    rw [watchRecordsFn_none hl]
    unfold SubInv indR indT at h
    show (if s.recordsWatchers.length = 0 then s.subCount + 1 else s.subCount) =
      (if s.recordsWatchers ++ [(c, s.nextWid)] = [] then 0 else 1) +
        (if s.typeWatchers = [] then 0 else 1)
    rw [if_neg (show ¬(s.recordsWatchers ++ [(c, s.nextWid)] = []) by simp)]
    by_cases hz : s.recordsWatchers.length = 0
    · rw [if_pos hz]
      rw [length_eq_zero_iff_nil] at hz
      rw [hz] at h
      simp only [if_pos] at h
      omega
    · rw [if_neg hz]
      have hne : s.recordsWatchers ≠ [] := fun hh => hz (by rw [hh]; rfl)
      rw [if_neg hne] at h
      omega

theorem subInv_watchTypeFn (c : Nat) (s : Coord) (h : SubInv s) :
    SubInv (watchTypeFn c s).1 := by
  cases hl : alookup c s.typeWatchers with
  | some wid =>
    rw [watchTypeFn_some hl]
    exact h
  | none =>
    rw [watchTypeFn_none hl]
    unfold SubInv indR indT at h
    show (if s.typeWatchers.length = 0 then s.subCount + 1 else s.subCount) =
      (if s.recordsWatchers = [] then 0 else 1) +
        (if s.typeWatchers ++ [(c, s.nextWid)] = [] then 0 else 1)
    rw [if_neg (show ¬(s.typeWatchers ++ [(c, s.nextWid)] = []) by simp)]
    by_cases hz : s.typeWatchers.length = 0
    · rw [if_pos hz]
      rw [length_eq_zero_iff_nil] at hz
      rw [hz] at h
      simp only [if_pos] at h
      omega
    · rw [if_neg hz]
      have hne : s.typeWatchers ≠ [] := fun hh => hz (by rw [hh]; rfl)
      rw [if_neg hne] at h
      omega

theorem subInv_releaseRecords (c : Nat) (s : Coord) (hwf : CoordWf s) (h : SubInv s)
    (hmem : c ∈ akeys s.recordsWatchers) : SubInv (releaseRecords c s) := by
  rw [releaseRecords_eq]
  unfold SubInv indR indT at h
  show (if s.recordsWatchers.length = 1 then s.subCount - 1 else s.subCount) =
    (if aerase c s.recordsWatchers = [] then 0 else 1) +
      (if s.typeWatchers = [] then 0 else 1)
  by_cases h1 : s.recordsWatchers.length = 1
  · rw [if_pos h1]
    obtain ⟨p, hp⟩ := List.length_eq_one.1 h1
    have hpc : p.1 = c := by
      rw [hp] at hmem
      simp [akeys] at hmem
      exact hmem.symm
    have hae : aerase c s.recordsWatchers = [] := by
      rw [hp, aerase, if_pos hpc]
      rfl
    rw [if_pos hae]
    have hne : s.recordsWatchers ≠ [] := by rw [hp]; simp
    rw [if_neg hne] at h
    omega
  · rw [if_neg h1]
    have hne : s.recordsWatchers ≠ [] := by
      intro hh
      rw [hh] at hmem
      simp [akeys] at hmem
    have hlen := aerase_length hwf.nodupR hmem
    have hae : aerase c s.recordsWatchers ≠ [] := by
      intro hh
      rw [hh] at hlen
      simp only [List.length_nil, Nat.zero_add] at hlen
      exact h1 hlen.symm
    rw [if_neg hae, if_neg hne] at *
    exact h

theorem subInv_releaseType (c : Nat) (s : Coord) (hwf : CoordWf s) (h : SubInv s)
    (hmem : c ∈ akeys s.typeWatchers) : SubInv (releaseType c s) := by
  rw [releaseType_eq]
  unfold SubInv indR indT at h
  show (if s.typeWatchers.length = 1 then s.subCount - 1 else s.subCount) =
    (if s.recordsWatchers = [] then 0 else 1) +
      (if aerase c s.typeWatchers = [] then 0 else 1)
  by_cases h1 : s.typeWatchers.length = 1
  · rw [if_pos h1]
    obtain ⟨p, hp⟩ := List.length_eq_one.1 h1
    have hpc : p.1 = c := by
      rw [hp] at hmem
      simp [akeys] at hmem
      exact hmem.symm
    have hae : aerase c s.typeWatchers = [] := by
      rw [hp, aerase, if_pos hpc]
      rfl
    rw [if_pos hae]
    have hne : s.typeWatchers ≠ [] := by rw [hp]; simp
    rw [if_neg hne] at h
    omega
  · rw [if_neg h1]
    have hne : s.typeWatchers ≠ [] := by
      intro hh
      rw [hh] at hmem
      simp [akeys] at hmem
    have hlen := aerase_length hwf.nodupT hmem
    have hae : aerase c s.typeWatchers ≠ [] := by
      intro hh
      rw [hh] at hlen
      simp only [List.length_nil, Nat.zero_add] at hlen
      exact h1 hlen.symm
    rw [if_neg hae, if_neg hne] at *
    exact h

theorem subInv_watchTypeFold (cs : List Nat) :
    ∀ s : Coord, SubInv s → SubInv (cs.foldl (fun t c => (watchTypeFn c t).1) s) := by
  induction cs with
  | nil => intro s h; exact h
  | cons c cs ih =>
    intro s h
    rw [List.foldl_cons]
    exact ih _ (subInv_watchTypeFn c s h)

theorem subInv_watchTypes (cs : List Nat) (s : Coord) (h : SubInv s) :
    SubInv (watchTypesFn cs s) :=
  subInv_watchTypeFold cs s h

theorem subInv_typeFold_safe (cs : List Nat) :
    ∀ s : Coord, CoordWf s → SubInv s → cs.Nodup →
      (∀ c ∈ cs, c ∈ akeys s.typeWatchers) →
      SubInv (cs.foldl (fun t c => releaseType c t) s) := by
  induction cs with
  | nil => intro s _ h _ _; exact h
  | cons c cs ih =>
    intro s hwf h hnd hmem
    rw [List.foldl_cons]
    have hc : c ∈ akeys s.typeWatchers := hmem c (List.mem_cons_self c cs)
    rw [List.nodup_cons] at hnd
    refine ih _ (coordWf_releaseType c s hwf) (subInv_releaseType c s hwf h hc) hnd.2 ?_
    intro c2 hc2
    rw [releaseType_eq]
    show c2 ∈ akeys (aerase c s.typeWatchers)
    rw [mem_akeys_aerase]
    refine ⟨hmem c2 (List.mem_cons_of_mem c hc2), ?_⟩
    intro hh
    exact hnd.1 (hh ▸ hc2)

theorem typeFold_drain :
    ∀ (ks : List Nat) (s : Coord), akeys s.typeWatchers = ks → ks.Nodup → SubInv s →
      (ks.foldl (fun t c => releaseType c t) s).subCount = indR s := by
  intro ks
  induction ks with
  | nil =>
    intro s hk _ hsub
    have htw : s.typeWatchers = [] := by
      have : List.map Prod.fst s.typeWatchers = [] := hk
      exact List.map_eq_nil_iff.1 this
    unfold SubInv indR indT at hsub
    rw [htw, if_pos rfl] at hsub
    show s.subCount = indR s
    unfold indR
    omega
  | cons k ks ih =>
    intro s hk hnd hsub
    cases htw : s.typeWatchers with
    | nil =>
      rw [htw] at hk
      exact absurd hk (by simp [akeys])
    | cons p rest =>
      rw [htw] at hk
      simp only [akeys, List.map_cons, List.cons.injEq] at hk
      obtain ⟨hp1, hrest⟩ := hk
      rw [List.nodup_cons] at hnd
      rw [List.foldl_cons, releaseType_eq k s]
      have hae : aerase k s.typeWatchers = rest := by
        rw [htw, aerase, if_pos hp1]
        exact aerase_of_not_mem (by rw [show akeys rest = List.map Prod.fst rest from rfl, hrest]; exact hnd.1)
      have hkeys : akeys (⟨s.recordsWatchers, aerase k s.typeWatchers, s.releaseMethods,
          (if s.typeWatchers.length = 1 then s.subCount - 1 else s.subCount),
          s.nextWid, s.nextCid, s.issuedR, s.issuedT, s.issuedC⟩ : Coord).typeWatchers
          = ks := by
        show akeys (aerase k s.typeWatchers) = ks
        rw [hae]
        exact hrest
      have hsub2 : SubInv (⟨s.recordsWatchers, aerase k s.typeWatchers, s.releaseMethods,
          (if s.typeWatchers.length = 1 then s.subCount - 1 else s.subCount),
          s.nextWid, s.nextCid, s.issuedR, s.issuedT, s.issuedC⟩ : Coord) := by
        unfold SubInv indR indT at hsub ⊢
        show (if s.typeWatchers.length = 1 then s.subCount - 1 else s.subCount) =
          (if s.recordsWatchers = [] then 0 else 1) +
            (if aerase k s.typeWatchers = [] then 0 else 1)
        rw [hae]
        have hne : s.typeWatchers ≠ [] := by rw [htw]; simp
        rw [if_neg hne] at hsub
        by_cases hrnil : rest = []
        · have hlen : s.typeWatchers.length = 1 := by rw [htw, hrnil]; rfl
          rw [if_pos hlen, if_pos hrnil]
          omega
        · have hlen : s.typeWatchers.length ≠ 1 := by
            rw [htw]
            simp only [List.length_cons]
            intro hh
            exact hrnil (length_eq_zero_iff_nil.1 (by omega))
          rw [if_neg hlen, if_neg hrnil]
          omega
      have := ih _ hkeys hnd.2 hsub2
      rw [this]
      rfl

theorem recordsFold_drain :
    ∀ (ks : List Nat) (s : Coord), akeys s.recordsWatchers = ks → ks.Nodup → SubInv s →
      (ks.foldl (fun t c => releaseRecords c t) s).subCount = indT s := by
  intro ks
  induction ks with
  | nil =>
    intro s hk _ hsub
    have hrw : s.recordsWatchers = [] := by
      have : List.map Prod.fst s.recordsWatchers = [] := hk
      exact List.map_eq_nil_iff.1 this
    unfold SubInv indR indT at hsub
    rw [hrw, if_pos rfl] at hsub
    show s.subCount = indT s
    unfold indT
    omega
  | cons k ks ih =>
    intro s hk hnd hsub
    cases hrw : s.recordsWatchers with
    | nil =>
      rw [hrw] at hk
      exact absurd hk (by simp [akeys])
    | cons p rest =>
      rw [hrw] at hk
      simp only [akeys, List.map_cons, List.cons.injEq] at hk
      obtain ⟨hp1, hrest⟩ := hk
      rw [List.nodup_cons] at hnd
      rw [List.foldl_cons, releaseRecords_eq k s]
      have hae : aerase k s.recordsWatchers = rest := by
        rw [hrw, aerase, if_pos hp1]
        exact aerase_of_not_mem (by rw [show akeys rest = List.map Prod.fst rest from rfl, hrest]; exact hnd.1)
      have hkeys : akeys (⟨aerase k s.recordsWatchers, s.typeWatchers, s.releaseMethods,
          (if s.recordsWatchers.length = 1 then s.subCount - 1 else s.subCount),
          s.nextWid, s.nextCid, s.issuedR, s.issuedT, s.issuedC⟩ : Coord).recordsWatchers
          = ks := by
        show akeys (aerase k s.recordsWatchers) = ks
        rw [hae]
        exact hrest
      have hsub2 : SubInv (⟨aerase k s.recordsWatchers, s.typeWatchers, s.releaseMethods,
          (if s.recordsWatchers.length = 1 then s.subCount - 1 else s.subCount),
          s.nextWid, s.nextCid, s.issuedR, s.issuedT, s.issuedC⟩ : Coord) := by
        unfold SubInv indR indT at hsub ⊢
        show (if s.recordsWatchers.length = 1 then s.subCount - 1 else s.subCount) =
          (if aerase k s.recordsWatchers = [] then 0 else 1) +
            (if s.typeWatchers = [] then 0 else 1)
        rw [hae]
        have hne : s.recordsWatchers ≠ [] := by rw [hrw]; simp
        rw [if_neg hne] at hsub
        by_cases hrnil : rest = []
        · have hlen : s.recordsWatchers.length = 1 := by rw [hrw, hrnil]; rfl
          rw [if_pos hlen, if_pos hrnil]
          omega
        · have hlen : s.recordsWatchers.length ≠ 1 := by
            rw [hrw]
            simp only [List.length_cons]
            intro hh
            exact hrnil (length_eq_zero_iff_nil.1 (by omega))
          rw [if_neg hlen, if_neg hrnil]
          omega
      have := ih _ hkeys hnd.2 hsub2
      rw [this]
      rfl

theorem cdestroy_sub (s : Coord) (hwf : CoordWf s) (hsub : SubInv s) :
    SubInv (cdestroy s) := by
  obtain ⟨d1, d2, d3⟩ := cdestroy_registries s
  have h0 : (cdestroy s).subCount = 0 := by
    rw [cdestroy_eq]
    obtain ⟨t1, t2, t3, t4⟩ := typeFold_comps (akeys s.typeWatchers) s
    have htdrain := typeFold_drain (akeys s.typeWatchers) s rfl hwf.nodupT hsub
    have htE : ((akeys s.typeWatchers).foldl (fun t c => releaseType c t) s).typeWatchers
        = [] := by
      rw [t4]
      exact eraseFold_nil _ _ (fun p hp => List.mem_map_of_mem _ hp)
    have hsub1 : SubInv ((akeys s.typeWatchers).foldl (fun t c => releaseType c t) s) := by
      unfold SubInv indR indT
      rw [htE, t1, htdrain, if_pos rfl]
      unfold indR
      omega
    have hkeys1 : akeys ((akeys s.typeWatchers).foldl (fun t c => releaseType c t)
        s).recordsWatchers = akeys s.recordsWatchers := by rw [t1]
    have hrdrain := recordsFold_drain (akeys s.recordsWatchers) _ hkeys1 hwf.nodupR hsub1
    obtain ⟨r1, r2, r3, r4⟩ := recordsFold_comps (akeys s.recordsWatchers)
      ((akeys s.typeWatchers).foldl (fun t c => releaseType c t) s)
    obtain ⟨g1, g2, g3⟩ := compFold_comps s.releaseMethods
      ((akeys s.recordsWatchers).foldl (fun t c => releaseRecords c t)
        ((akeys s.typeWatchers).foldl (fun t c => releaseType c t) s))
    obtain ⟨f1, f2⟩ := g3 (r1.trans htE)
    rw [f2, hrdrain]
    unfold indT
    rw [if_pos htE]
  unfold SubInv indR indT
  rw [h0, d1, d2]
  simp

theorem subInv_cstep (op : COp) (s : Coord) (hsafe : safeOp s op = true)
    (hwf : CoordWf s) (h : SubInv s) : SubInv (cstep op s) := by
  cases op with
  | watchR c => exact subInv_watchRecordsFn c s h
  | watchT c => exact subInv_watchTypeFn c s h
  | relR c =>
    show SubInv (if c ∈ s.issuedR then releaseRecords c s else s)
    by_cases hc : c ∈ s.issuedR
    · rw [if_pos hc]
      have hmem : c ∈ akeys s.recordsWatchers := (alookup_isSome c _).1 hsafe
      exact subInv_releaseRecords c s hwf h hmem
    · rw [if_neg hc]
      exact h
  | watchTypes cs => exact subInv_watchTypes cs s h
  | relTypes i =>
    show SubInv (match alookup i s.issuedC with
      | some cs => compositeRelease i cs s
      | none => s)
    cases hl : alookup i s.issuedC with
    | none => exact h
    | some cs =>
      unfold safeOp at hsafe
      simp only [hl] at hsafe
      rw [Bool.and_eq_true, Bool.and_eq_true] at hsafe
      obtain ⟨_, hnd, hall⟩ := hsafe
      have hnd2 : cs.Nodup := of_decide_eq_true hnd
      have hall2 : ∀ c ∈ cs, c ∈ akeys s.typeWatchers := by
        intro c hc
        have := List.all_eq_true.1 hall c hc
        exact (alookup_isSome c _).1 this
      exact subInv_typeFold_safe cs s hwf h hnd2 hall2
  | flush => exact h
  | destroy => exact cdestroy_sub s hwf h

theorem subInv_safe_fold :
    ∀ (ops : List COp) (s : Coord), safeTrace s ops = true → CoordWf s → SubInv s →
      SubInv (ops.foldl (fun t op => cstep op t) s) := by
  intro ops
  induction ops with
  | nil => intro s _ _ h; exact h
  | cons op rest ih =>
    intro s hsafe hwf h
    have hsafe2 : safeOp s op = true ∧ safeTrace (cstep op s) rest = true := by
      have h2 : (safeOp s op && safeTrace (cstep op s) rest) = true := hsafe
      rw [Bool.and_eq_true] at h2
      exact h2
    rw [List.foldl_cons]
    exact ih _ hsafe2.2 (coordWf_cstep op s hwf) (subInv_cstep op s hsafe2.1 hwf h)

theorem subInv_creach (ops : List COp) (h : safeTrace cinit ops = true) :
    SubInv (creach ops) :=
  subInv_safe_fold ops cinit h coordWf_cinit rfl

/-! ### Claim theorems for the coordinator -/

/-- Claim C3: a second `watchRecords` call resolving to the same
collection is a no-op on the coordinator (exactly one watcher is created
by the two calls); each registry holds at most one watcher per collection
in every reachable state (its keys are distinct); and after releasing via
one of the two (identical) handles, invoking the other handle still
leaves the watcher fully released. -/
theorem c3_theorem (s : Coord) (c : Nat) (ops : List COp) :
    cstep (COp.watchR c) (cstep (COp.watchR c) s) = cstep (COp.watchR c) s ∧
    ((akeys (creach ops).recordsWatchers).Nodup ∧
      (akeys (creach ops).typeWatchers).Nodup) ∧
    alookup c (cstep (COp.relR c) (cstep (COp.relR c)
      (cstep (COp.watchR c) (creach ops)))).recordsWatchers = none := by
  refine ⟨?_, ⟨(coordWf_creach ops).nodupR, (coordWf_creach ops).nodupT⟩, ?_⟩
  · cases hl : alookup c s.recordsWatchers with
    | some wid =>
      have h1 : cstep (COp.watchR c) s = s := by
        show (watchRecordsFn c s).1 = s
        rw [watchRecordsFn_some hl]
      rw [h1, h1]
    | none =>
      have h1 := watchRecordsFn_none hl
      have h2 : cstep (COp.watchR c) s = (watchRecordsFn c s).1 := rfl
      rw [h2, h1]
      have hl2 : alookup c (s.recordsWatchers ++ [(c, s.nextWid)]) = some s.nextWid := by
        rw [alookup_append_none _ hl]
        simp [alookup]
      show (watchRecordsFn c _).1 = _
      rw [watchRecordsFn_some hl2]
  · have hwf := coordWf_creach ops
    have hiss : c ∈ (cstep (COp.watchR c) (creach ops)).issuedR := by
      cases hl : alookup c (creach ops).recordsWatchers with
      | some wid =>
        have h1 : cstep (COp.watchR c) (creach ops) = creach ops := by
          show (watchRecordsFn c (creach ops)).1 = creach ops
          rw [watchRecordsFn_some hl]
        rw [h1]
        exact hwf.issued c ((alookup_isSome c _).1 (by rw [hl]; rfl))
      | none =>
        have h2 : cstep (COp.watchR c) (creach ops) =
            (watchRecordsFn c (creach ops)).1 := rfl
        rw [h2, watchRecordsFn_none hl]
        show c ∈ (creach ops).issuedR ++ [c]
        exact List.mem_append_right _ (List.mem_singleton.2 rfl)
    have hrel1 : cstep (COp.relR c) (cstep (COp.watchR c) (creach ops)) =
        releaseRecords c (cstep (COp.watchR c) (creach ops)) := by
      show (if c ∈ (cstep (COp.watchR c) (creach ops)).issuedR then _ else _) = _
      rw [if_pos hiss]
    have hiss2 : c ∈ (releaseRecords c (cstep (COp.watchR c) (creach ops))).issuedR := by
      rw [releaseRecords_eq]
      exact hiss
    have hrel2 : cstep (COp.relR c)
        (releaseRecords c (cstep (COp.watchR c) (creach ops))) =
        releaseRecords c (releaseRecords c (cstep (COp.watchR c) (creach ops))) := by
      show (if c ∈ (releaseRecords c (cstep (COp.watchR c) (creach ops))).issuedR
        then _ else _) = _
      rw [if_pos hiss2]
    rw [hrel1, hrel2, releaseRecords_eq c (cstep (COp.watchR c) (creach ops))]
    rw [releaseRecords_eq]
    show alookup c (aerase c (aerase c
      (cstep (COp.watchR c) (creach ops)).recordsWatchers)) = none
    rw [aerase_idem]
    exact alookup_aerase_self c _

/-- Claim C4, as stated, is false on the code: each registry manages its
own `backburner` subscription, so invoking a stale records-release closure
while its watcher is already unregistered (and exactly one other records
watcher remains) unsubscribes `flushWatchers` even though a watcher is
still registered.  Concretely, after watchRecords on collections 10 and
20 and two invocations of collection 10's release closure, the
subscription count is 0 while the watcher for 20 is still registered. -/
theorem c4_counterexample :
    ¬ (∀ ops : List COp, 1 ≤ (creach ops).subCount ↔
        ((creach ops).recordsWatchers ≠ [] ∨ (creach ops).typeWatchers ≠ [])) := by
  intro hcl
  have h2 := (hcl [COp.watchR 10, COp.watchR 20, COp.relR 10, COp.relR 10]).2
    (Or.inl (by decide))
  have h3 : (creach [COp.watchR 10, COp.watchR 20, COp.relR 10, COp.relR 10]).subCount
      = 0 := by rfl
  omega

/-- Claim C4 (amended): provided every release closure is invoked only
while its watcher (and, for composite releases, each of their type
observers) is still registered, the number of live `flushWatchers`
registrations equals the number of non-empty registries — each registry
subscribes on its own first watcher and unsubscribes on its own last one —
and consequently the subscription is active (at least one registration)
precisely when at least one watcher of either kind is registered. -/
theorem c4_theorem (ops : List COp) (h : safeTrace cinit ops = true) :
    (creach ops).subCount = indR (creach ops) + indT (creach ops) ∧
    (1 ≤ (creach ops).subCount ↔
      ((creach ops).recordsWatchers ≠ [] ∨ (creach ops).typeWatchers ≠ [])) := by
  have hs := subInv_creach ops h
  refine ⟨hs, ?_⟩
  unfold SubInv indR indT at hs
  rw [hs]
  by_cases h1 : (creach ops).recordsWatchers = [] <;>
    by_cases h2 : (creach ops).typeWatchers = [] <;>
      simp [h1, h2]

/-- Witness for C4 at a concrete input: the safe trace that registers one
records watcher and one type watcher, after which the subscription is
active and both registries are non-empty. -/
theorem c4_witness :
    safeTrace cinit [COp.watchR 0, COp.watchT 1] = true ∧
    (1 ≤ (creach [COp.watchR 0, COp.watchT 1]).subCount ↔
      ((creach [COp.watchR 0, COp.watchT 1]).recordsWatchers ≠ [] ∨
        (creach [COp.watchR 0, COp.watchT 1]).typeWatchers ≠ [])) :=
  ⟨by decide, (c4_theorem [COp.watchR 0, COp.watchT 1] (by decide)).2⟩

/-- Claim C8: `willDestroy` empties all three registries — it releases
every type watcher, every records watcher and every pending release
callback registered by `watchModelTypes` — for every coordinator state,
in particular also when some watchers were already individually released;
and invoking the same release closure twice leaves the registries in the
same state as invoking it once. -/
theorem c8_theorem (s : Coord) (c : Nat) :
    (cdestroy s).recordsWatchers = [] ∧ (cdestroy s).typeWatchers = [] ∧
    (cdestroy s).releaseMethods = [] ∧
    registries (cstep (COp.relR c) (cstep (COp.relR c) s)) =
      registries (cstep (COp.relR c) s) := by
  obtain ⟨d1, d2, d3⟩ := cdestroy_registries s
  refine ⟨d1, d2, d3, ?_⟩
  by_cases hc : c ∈ s.issuedR
  · have h1 : cstep (COp.relR c) s = releaseRecords c s := by
      show (if c ∈ s.issuedR then _ else _) = _
      rw [if_pos hc]
    rw [h1]
    have hc2 : c ∈ (releaseRecords c s).issuedR := by
      rw [releaseRecords_eq]
      exact hc
    have h2 : cstep (COp.relR c) (releaseRecords c s) =
        releaseRecords c (releaseRecords c s) := by
      show (if c ∈ (releaseRecords c s).issuedR then _ else _) = _
      rw [if_pos hc2]
    rw [h2, releaseRecords_eq c s, releaseRecords_eq]
    unfold registries
    show (aerase c (aerase c s.recordsWatchers), s.typeWatchers, s.releaseMethods) =
      (aerase c s.recordsWatchers, s.typeWatchers, s.releaseMethods)
    rw [aerase_idem]
  · have h1 : cstep (COp.relR c) s = s := by
      show (if c ∈ s.issuedR then _ else _) = _
      rw [if_neg hc]
    rw [h1, h1]

/-- Claim C9: when `watchRecords` resolves to a collection that already
has a registered watcher, the call creates nothing, forces no initial
revalidation, stores the caller's callbacks nowhere (so they are never
invoked), leaves the coordinator unchanged, and returns the registered
watcher's release function; in particular an immediately repeated call
returns the same release function the creating call returned. -/
theorem c9_theorem (s : Coord) (c wid : Nat) :
    (alookup c s.recordsWatchers = some wid → watchRecordsFn c s = (s, wid, false)) ∧
    (alookup c s.recordsWatchers = none →
      watchRecordsFn c (watchRecordsFn c s).1 =
        ((watchRecordsFn c s).1, (watchRecordsFn c s).2.1, false)) := by
  constructor
  · exact watchRecordsFn_some
  · intro hl
    rw [watchRecordsFn_none hl]
    have hl2 : alookup c (s.recordsWatchers ++ [(c, s.nextWid)]) = some s.nextWid := by
      rw [alookup_append_none _ hl]
      simp [alookup]
    show watchRecordsFn c _ = _
    rw [watchRecordsFn_some hl2]

/-- Witness for C9 at a concrete input: after creating the watcher for
collection 7 on a fresh adapter, a second `watchRecords` call returns the
same state and the same release function. -/
theorem c9_witness :
    watchRecordsFn 7 (watchRecordsFn 7 cinit).1 =
      ((watchRecordsFn 7 cinit).1, (watchRecordsFn 7 cinit).2.1, false) :=
  (c9_theorem cinit 7 0).2 rfl

end DataAdapter
